import Mathlib

/-! peelo::path: a shallow embedding of `src/src/path.cpp` and `src/include/peelo/path.hpp`

The development follows the C++ source function by function.

* A `std::u32string` is a list of code points (`Nat`, a superset of `char32_t`).
* Reads that C++ leaves undefined or that throw (`operator[]` past the end, `substr` with a
  start past the end, `back()` of an empty string) return `none`, so that every function that
  indexes a string lives in `Option`.
* The preprocessor symbol `_WIN32` is the Boolean parameter `win32` of the parser; the metadata
  members (`m_stat_state`, `m_stat`, `path::stat`) exist only in the build without `_WIN32` and
  are embedded for that build.
* The library call `std::isalpha` of the `_WIN32` branch of `parse` is undefined for an
  argument above 255. `parse` takes the call as the total function `isalpha` and so gives the
  result of every run in which the call is defined; `parse_checked` is the same function with
  the call held to its precondition, and returns `none` where the call is undefined.
* The system call `::stat`, the encoder `unicode::utf8::encode` and `datetime::timestamp` are
  not part of this repository; they are the fields of `Env`.
-/

namespace peelo

/-! ## Strings -/

/-- A `std::u32string`: a finite sequence of code points. -/
abbrev U32String := List Nat

/-- The expression `s[i]`, defined for `i` below the length only. -/
def char_at (s : U32String) (i : Nat) : Option Nat := s[i]?

/-- The call `s.substr(pos, count)`: throws `std::out_of_range` when `pos > s.size()`. -/
def substr (s : U32String) (pos count : Nat) : Option U32String :=
  if pos ≤ s.length then some ((s.drop pos).take count) else none

/-- The call `s.substr(pos)`, whose count is `npos`. -/
def substr_from (s : U32String) (pos : Nat) : Option U32String :=
  if pos ≤ s.length then some (s.drop pos) else none

/-- The call `s.back()`, undefined on the empty string. -/
def back (s : U32String) : Option Nat := s.getLast?

/-- The call `a.compare(b)` of `std::basic_string`: the characters are compared in order as
unsigned values, then the lengths. The C++ standard fixes the sign of the result only; the
embedding returns `-1`, `0` or `1`. -/
def u32compare : U32String → U32String → Int
  | [], [] => 0
  | [], _ :: _ => -1
  | _ :: _, [] => 1
  | a :: as, b :: bs => if a < b then -1 else if b < a then 1 else u32compare as bs

/-! ## Separators -/

/-- The static member `path::separator`: a backslash under `_WIN32`, a slash otherwise. -/
def separator (win32 : Bool) : Nat := if win32 then 92 else 47

/-- The function `path::is_separator`: `c == '/' || c == '\\'`. -/
def is_separator (c : Nat) : Bool := c == 47 || c == 92

/-- The value of `std::isalpha` in the "C" locale where the call is defined: the letters
`A`–`Z` and `a`–`z`. The call is defined for an argument representable as `unsigned char`
only; see `isalpha_checked`. -/
def isalpha (c : Nat) : Bool := (65 ≤ c && c ≤ 90) || (97 ≤ c && c ≤ 122)

/-- The call `std::isalpha(c)` with its precondition: the argument must be representable as
`unsigned char`, that is at most 255; for any other argument the behaviour is undefined and
the result is `none`. -/
def isalpha_checked (c : Nat) : Option Bool := if c ≤ 255 then some (isalpha c) else none

/-! ## The parser -/

/-- The static function `append_part(input, parts)`; the result is the new value of `parts`.
`push_back` appends at the end and `pop_back` removes the last element. -/
def append_part (input : U32String) (parts : List U32String) : Option (List U32String) :=
  let length := input.length
  if length = 0 then
    some parts
  else
    (char_at input 0).bind fun c0 =>
    if c0 = 46 then
      -- `length == 2 && input[1] == '.'`, the right operand read only when the left holds
      (if length = 2 then (char_at input 1).map (fun c1 => decide (c1 = 46)) else some false).bind
      fun dotdot =>
      if dotdot = true then
        if parts ≠ [] then some parts.dropLast else some (parts ++ [input])
      else if length = 1 then
        if parts ≠ [] then some parts else some (parts ++ [input])
      else
        some (parts ++ [input])
    else
      some (parts ++ [input])

/-- One run of the loop of `compile_path`: the first argument counts the iterations left
(`parts.size() - i`), the second is `i`, the third is `result`. -/
def compile_loop (win32 : Bool) (parts : List U32String) : Nat → Nat → U32String → Option U32String
  | 0, _, result => some result
  | n + 1, i, result =>
    -- `i > 0 && !is_separator(result.back())`
    (if 0 < i then (back result).map (fun c => !is_separator c) else some false).bind
    fun insert =>
    (parts[i]?).bind fun part =>
    compile_loop win32 parts n (i + 1)
      ((if insert = true then result ++ [separator win32] else result) ++ part)

/-- The static function `compile_path(root, parts)`. -/
def compile_path (win32 : Bool) (root : U32String) (parts : List U32String) : Option U32String :=
  compile_loop win32 parts parts.length 0 (if root ≠ [] then [] ++ root else [])

/-- The three output parameters of `parse`. -/
structure Parsed where
  full_path : U32String
  root : U32String
  parts : List U32String
  deriving DecidableEq

/-- The local variables `begin` and `end` of `parse` together with `parts`, as the scanning
loop updates them. -/
structure Scan where
  begin : Nat
  end_ : Nat
  parts : List U32String
  deriving DecidableEq

/-- The body of the scanning loop of `parse` at index `i`. -/
def scan_body (source : U32String) (i : Nat) (st : Scan) : Option Scan :=
  (char_at source i).bind fun c =>
  if is_separator c = true then
    (if 0 < st.end_ then
      (substr source st.begin st.end_).bind fun part => append_part part st.parts
     else some st.parts).bind
    fun parts => some { begin := i + 1, end_ := 0, parts := parts }
  else
    some { st with end_ := st.end_ + 1 }

/-- The loop `for (i = begin; i < length; ++i)` of `parse`; the body changes neither `i` nor
`length`, so it runs `length - begin` times: the first argument counts the iterations left,
the second is `i`. -/
def scan_loop (source : U32String) : Nat → Nat → Scan → Option Scan
  | 0, _, st => some st
  | n + 1, i, st => (scan_body source i st).bind fun st1 => scan_loop source n (i + 1) st1

/-- The part of `parse` from the scanning loop to the end, entered with `begin`, `end = 0` and
the output parameters as the root detection left them. -/
def scan_and_compile (win32 : Bool) (source : U32String) (begin : Nat) (out : Parsed) :
    Option Parsed :=
  (scan_loop source (source.length - begin) begin { begin := begin, end_ := 0, parts := out.parts }).bind
  fun st =>
  (if 0 < st.end_ then
    (substr_from source st.begin).bind fun part => append_part part st.parts
   else some st.parts).bind
  fun parts =>
  (compile_path win32 out.root parts).bind fun full =>
  some { full_path := full, root := out.root, parts := parts }

/-- The static function `parse(source, full_path, root, parts)`: `out` holds the three output
parameters on entry, the result holds them on return. -/
def parse (win32 : Bool) (source : U32String) (out : Parsed) : Option Parsed :=
  let length := source.length
  if length = 0 then
    some out
  else
    (char_at source 0).bind fun c0 =>
    if is_separator c0 = true then
      (substr source 0 1).bind fun root =>
      if length = 1 then
        some { out with root := root, full_path := root }
      else
        scan_and_compile win32 source 1 { out with root := root }
    else if win32 = true then
      -- `length > 1 && std::isalpha(source[0]) && source[1] == ':'`
      (if 1 < length ∧ isalpha c0 = true then (char_at source 1).map (fun c1 => decide (c1 = 58))
       else some false).bind
      fun drive =>
      if drive = true then
        if length = 2 then
          some { out with root := source, full_path := source }
        else
          (char_at source 2).bind fun c2 =>
          if is_separator c2 = true then
            (substr source 0 2).bind fun root =>
            scan_and_compile win32 source 3 { out with root := root }
          else
            scan_and_compile win32 source 0 out
      else
        scan_and_compile win32 source 0 out
    else
      scan_and_compile win32 source 0 out

/-- The static function `parse` once more, with the call `std::isalpha(source[0])` of the
`_WIN32` branch held to its precondition. In `length > 1 && std::isalpha(source[0]) &&
source[1] == ':'` the call is made exactly when `length > 1`, and `source[1]` is read exactly
when the call returns true. Everything else is as in `parse`. -/
def parse_checked (win32 : Bool) (source : U32String) (out : Parsed) : Option Parsed :=
  let length := source.length
  if length = 0 then
    some out
  else
    (char_at source 0).bind fun c0 =>
    if is_separator c0 = true then
      (substr source 0 1).bind fun root =>
      if length = 1 then
        some { out with root := root, full_path := root }
      else
        scan_and_compile win32 source 1 { out with root := root }
    else if win32 = true then
      (if 1 < length then
        (isalpha_checked c0).bind fun alpha =>
        if alpha = true then (char_at source 1).map (fun c1 => decide (c1 = 58))
        else some false
       else some false).bind
      fun drive =>
      if drive = true then
        if length = 2 then
          some { out with root := source, full_path := source }
        else
          (char_at source 2).bind fun c2 =>
          if is_separator c2 = true then
            (substr source 0 2).bind fun root =>
            scan_and_compile win32 source 3 { out with root := root }
          else
            scan_and_compile win32 source 0 out
      else
        scan_and_compile win32 source 0 out
    else
      scan_and_compile win32 source 0 out

/-- The sources on which the `_WIN32` branch of `parse` calls `std::isalpha` outside its
domain: at least two code points, the first of them not a separator and above 255. -/
def isalpha_out_of_domain (source : U32String) : Bool :=
  match source with
  | c :: _ :: _ => !is_separator c && decide (255 < c)
  | _ => false

/-- The output parameters as the constructors and `assign` pass them: all empty. -/
def Parsed.clear : Parsed := { full_path := [], root := [], parts := [] }

/-- Code points of a string literal, for readable examples. -/
def u32 (s : String) : U32String := s.toList.map Char.toNat

/-! ## The class `path` (build without `_WIN32`) -/

/-- The anonymous enumeration of the member `m_stat_state`. -/
inductive StatState where
  | stat_state_uninitialized
  | stat_state_success
  | stat_state_failure
  deriving DecidableEq

/-- The fields of `struct stat` that the class reads. -/
structure Stat where
  st_mode : Nat
  st_size : Nat
  st_atime : Int
  st_mtime : Int
  deriving DecidableEq

/-- The constants and kind tests of `<sys/stat.h>` (a system header), with the values Linux
gives them: `S_ISxxx(m)` is `(m & S_IFMT) == S_IFxxx`. -/
def S_IFMT : Nat := 0o170000
def S_ISDIR (m : Nat) : Bool := m &&& S_IFMT == 0o040000
def S_ISREG (m : Nat) : Bool := m &&& S_IFMT == 0o100000
def S_ISLNK (m : Nat) : Bool := m &&& S_IFMT == 0o120000
def S_ISSOCK (m : Nat) : Bool := m &&& S_IFMT == 0o140000
def S_ISFIFO (m : Nat) : Bool := m &&& S_IFMT == 0o010000
def S_ISCHR (m : Nat) : Bool := m &&& S_IFMT == 0o020000
def S_ISBLK (m : Nat) : Bool := m &&& S_IFMT == 0o060000

/-- The data members of `peelo::path`. -/
structure Path where
  m_full_path : U32String
  m_root : U32String
  m_parts : List U32String
  m_stat_state : StatState
  m_stat : Stat
  deriving DecidableEq

/-- The collaborators that are not part of the repository: `unicode::utf8::encode`, the system
call `::stat` (`none` when it returns a negative value, otherwise the record it writes into
the buffer; a failing call is taken to leave the buffer as it was) and `datetime::timestamp`. -/
structure Env (Datetime : Type) where
  encode : U32String → List Nat
  sys_stat : List Nat → Option Stat
  timestamp : Int → Datetime

/-- A path object together with the log of the calls made to `::stat` so far, each entry the
encoded path that was passed. The accessors are `const` methods that change the `mutable`
members, so they return the object they leave behind. -/
structure Traced where
  path : Path
  calls : List (List Nat)
  deriving DecidableEq

/-- The constructor `path::path()`. The member `m_stat` is left indeterminate by C++; `junk`
stands for its content. -/
def Path.new (junk : Stat) : Path :=
  { m_full_path := [], m_root := [], m_parts := [],
    m_stat_state := .stat_state_uninitialized, m_stat := junk }

/-- The copy constructor `path::path(const path&)`. -/
def Path.copy (that : Path) : Path :=
  { m_full_path := that.m_full_path, m_root := that.m_root, m_parts := that.m_parts,
    m_stat_state := that.m_stat_state, m_stat := that.m_stat }

/-- The constructor `path::path(const std::u32string&)`. -/
def Path.of_source (junk : Stat) (source : U32String) : Option Path :=
  (parse false source { full_path := [], root := [], parts := [] }).map fun r =>
  { m_full_path := r.full_path, m_root := r.root, m_parts := r.parts,
    m_stat_state := .stat_state_uninitialized, m_stat := junk }

/-- The method `path::assign(const path&)`, also `operator=(const path&)`. -/
def Path.assign (self that : Path) : Path :=
  { self with m_full_path := that.m_full_path, m_root := that.m_root, m_parts := that.m_parts }

/-- The method `path::assign(const std::u32string&)`, also `operator=(const std::u32string&)`. -/
def Path.assign_source (self : Path) (source : U32String) : Option Path :=
  (parse false source { full_path := [], root := [], parts := [] }).map fun r =>
  { self with m_full_path := r.full_path, m_root := r.root, m_parts := r.parts }

/-- The method `path::empty`. -/
def Path.empty (self : Path) : Bool := self.m_full_path.isEmpty

/-- The private method `path::stat`. -/
def Path.stat {D : Type} (env : Env D) (t : Traced) : Bool × Traced :=
  if t.path.m_stat_state = .stat_state_failure then
    (false, t)
  else if t.path.m_stat_state = .stat_state_uninitialized then
    let encoded_path := env.encode t.path.m_full_path
    match env.sys_stat encoded_path with
    | none =>
      (false, { path := { t.path with m_stat_state := .stat_state_failure },
                calls := t.calls ++ [encoded_path] })
    | some record =>
      (true, { path := { t.path with m_stat := record, m_stat_state := .stat_state_success },
               calls := t.calls ++ [encoded_path] })
  else
    (true, t)

/-- The method `path::exists`. -/
def Path.exists_ {D : Type} (env : Env D) (t : Traced) : Bool × Traced :=
  if t.path.empty = true then (false, t) else Path.stat env t

/-- The expression `stat() && S_ISxxx(m_stat.st_mode)`: the kind test reads the record that
`stat()` leaves and is evaluated only when `stat()` returns true. -/
def stat_and {D : Type} (env : Env D) (test : Nat → Bool) (t : Traced) : Bool × Traced :=
  let r := Path.stat env t
  (r.1 && test r.2.path.m_stat.st_mode, r.2)

/-- The method `path::is_dir`. -/
def Path.is_dir {D : Type} (env : Env D) (t : Traced) : Bool × Traced :=
  if t.path.empty = true then (false, t) else stat_and env S_ISDIR t

/-- The method `path::is_file`. -/
def Path.is_file {D : Type} (env : Env D) (t : Traced) : Bool × Traced :=
  if t.path.empty = true then (false, t) else stat_and env S_ISREG t

/-- The method `path::is_symlink`. -/
def Path.is_symlink {D : Type} (env : Env D) (t : Traced) : Bool × Traced :=
  if ¬ t.path.empty = true then stat_and env S_ISLNK t else (false, t)

/-- The method `path::is_socket`. -/
def Path.is_socket {D : Type} (env : Env D) (t : Traced) : Bool × Traced :=
  if ¬ t.path.empty = true then stat_and env S_ISSOCK t else (false, t)

/-- The method `path::is_fifo`. -/
def Path.is_fifo {D : Type} (env : Env D) (t : Traced) : Bool × Traced :=
  if ¬ t.path.empty = true then stat_and env S_ISFIFO t else (false, t)

/-- The method `path::is_char_device`. -/
def Path.is_char_device {D : Type} (env : Env D) (t : Traced) : Bool × Traced :=
  if ¬ t.path.empty = true then stat_and env S_ISCHR t else (false, t)

/-- The method `path::is_block_device`; the source tests `empty()`, not `!empty()`. -/
def Path.is_block_device {D : Type} (env : Env D) (t : Traced) : Bool × Traced :=
  if t.path.empty = true then stat_and env S_ISBLK t else (false, t)

/-- The method `path::size`. -/
def Path.size {D : Type} (env : Env D) (t : Traced) : Option Nat × Traced :=
  if ¬ t.path.empty = true then
    let r := Path.stat env t
    if r.1 = true then (some r.2.path.m_stat.st_size, r.2) else (none, r.2)
  else (none, t)

/-- The method `path::last_access`; the source has no test of `empty()` here. -/
def Path.last_access {D : Type} (env : Env D) (t : Traced) : Option D × Traced :=
  let r := Path.stat env t
  if r.1 = true then (some (env.timestamp r.2.path.m_stat.st_atime), r.2) else (none, r.2)

/-- The method `path::last_modified`; the source has no test of `empty()` here. -/
def Path.last_modified {D : Type} (env : Env D) (t : Traced) : Option D × Traced :=
  let r := Path.stat env t
  if r.1 = true then (some (env.timestamp r.2.path.m_stat.st_mtime), r.2) else (none, r.2)

/-- The method `path::equals`. -/
def Path.equals (self that : Path) : Bool :=
  if self.empty = true then that.empty
  else decide (u32compare self.m_full_path that.m_full_path = 0)

/-- The method `path::compare`. -/
def Path.compare (self that : Path) : Int :=
  if self.empty = true then (if that.empty = true then 0 else -1)
  else u32compare self.m_full_path that.m_full_path

/-- The operators `==`, `!=`, `<`, `>`, `<=`, `>=` of the header. -/
def Path.op_eq (self that : Path) : Bool := self.equals that
def Path.op_ne (self that : Path) : Bool := !self.equals that
def Path.op_lt (self that : Path) : Bool := decide (self.compare that < 0)
def Path.op_gt (self that : Path) : Bool := decide (self.compare that > 0)
def Path.op_le (self that : Path) : Bool := decide (self.compare that ≤ 0)
def Path.op_ge (self that : Path) : Bool := decide (self.compare that ≥ 0)

/-! ## Sequences of accessor calls -/

/-- The metadata accessors of the query surface. -/
inductive Call where
  | exists_ | is_dir | is_file | is_symlink | is_socket | is_fifo | is_char_device
  | is_block_device | size | last_access | last_modified
  deriving DecidableEq

/-- What an accessor returns: a `bool`, an optional size or an optional datetime. -/
inductive Answer (D : Type) where
  | flag (b : Bool)
  | bytes (o : Option Nat)
  | time (o : Option D)
  deriving DecidableEq

/-- The answers "false" and "no value". -/
def Answer.negative {D : Type} : Answer D → Bool
  | .flag b => !b
  | .bytes o => o.isNone
  | .time o => o.isNone

/-- One accessor call on a traced object. -/
def Call.run {D : Type} (env : Env D) (c : Call) (t : Traced) : Answer D × Traced :=
  match c with
  | .exists_ => let r := Path.exists_ env t; (.flag r.1, r.2)
  | .is_dir => let r := Path.is_dir env t; (.flag r.1, r.2)
  | .is_file => let r := Path.is_file env t; (.flag r.1, r.2)
  | .is_symlink => let r := Path.is_symlink env t; (.flag r.1, r.2)
  | .is_socket => let r := Path.is_socket env t; (.flag r.1, r.2)
  | .is_fifo => let r := Path.is_fifo env t; (.flag r.1, r.2)
  | .is_char_device => let r := Path.is_char_device env t; (.flag r.1, r.2)
  | .is_block_device => let r := Path.is_block_device env t; (.flag r.1, r.2)
  | .size => let r := Path.size env t; (.bytes r.1, r.2)
  | .last_access => let r := Path.last_access env t; (.time r.1, r.2)
  | .last_modified => let r := Path.last_modified env t; (.time r.1, r.2)

/-- A finite sequence of accessor calls made one after the other on the same object; the
result is the list of answers and the object after the last call. -/
def run_calls {D : Type} (env : Env D) : List Call → Traced → List (Answer D) × Traced
  | [], t => ([], t)
  | c :: cs, t =>
    let r := c.run env t
    let rest := run_calls env cs r.2
    (r.1 :: rest.1, rest.2)

/-! ## Reference definitions used in the proofs about the parser -/

/-- The value that `append_part` returns, as a total function (`append_part_eq`): the empty
input changes nothing, `..` on a non-empty list removes the last element, `.` on a non-empty
list changes nothing, and every other input, also `.` and `..` on the empty list, is appended. -/
def push_part (input : U32String) (parts : List U32String) : List U32String :=
  if input = [] then parts
  else if input = [46, 46] ∧ parts ≠ [] then parts.dropLast
  else if input = [46] ∧ parts ≠ [] then parts
  else parts ++ [input]

/-- The left fold of `push_part` over a list of candidates. -/
def push_all (candidates : List U32String) (parts : List U32String) : List U32String :=
  candidates.foldl (fun acc c => push_part c acc) parts

/-- The non-empty maximal runs of characters that are not separators, in order, of the string
`cur ++ rest` where `cur` is the run in progress. -/
def runs_from (cur : U32String) : U32String → List U32String
  | [] => if cur = [] then [] else [cur]
  | c :: rest =>
    if is_separator c = true then
      (if cur = [] then runs_from [] rest else cur :: runs_from [] rest)
    else runs_from (cur ++ [c]) rest

/-- A string without a separator character. -/
def sep_free (s : U32String) : Bool := s.all fun c => !is_separator c

/-- The strings `.` and `..`. -/
def dot : U32String := [46]
def dotdot : U32String := [46, 46]

/-- A segment in the sense of the parent-cancellation property: a non-empty string without a
separator character that is neither `.` nor `..`. -/
def is_segment (s : U32String) : Bool :=
  !s.isEmpty && sep_free s && decide (s ≠ dot) && decide (s ≠ dotdot)

/-- Every string of the list preceded by the character `sep`. -/
def glue (sep : Nat) : List U32String → U32String
  | [] => []
  | p :: ps => sep :: p ++ glue sep ps

/-- The strings of the list joined with the character `sep` between neighbours. -/
def join_with (sep : Nat) : List U32String → U32String
  | [] => []
  | p :: ps => p ++ glue sep ps

/-- The value that `parse` returns when it is entered with empty output parameters, as a
total function (`parse_eq`): the root is the leading separator, or under `_WIN32` a drive
letter with its colon when a separator or nothing follows, or empty; the parts are the fold
of `push_part` over the runs of the rest; the full path is the root followed by the parts
joined with `path::separator`. -/
def parse_value (win32 : Bool) (source : U32String) : Parsed :=
  match source with
  | [] => { full_path := [], root := [], parts := [] }
  | c :: rest =>
    let relative : Parsed :=
      { full_path := join_with (separator win32) (push_all (runs_from [] source) []),
        root := [],
        parts := push_all (runs_from [] source) [] }
    if is_separator c = true then
      { full_path := c :: join_with (separator win32) (push_all (runs_from [] rest) []),
        root := [c],
        parts := push_all (runs_from [] rest) [] }
    else if win32 = true ∧ isalpha c = true then
      match rest with
      | [58] => { full_path := source, root := source, parts := [] }
      | 58 :: d :: rest2 =>
        if is_separator d = true then
          { full_path := c :: 58 :: join_with (separator win32) (push_all (runs_from [] rest2) []),
            root := [c, 58],
            parts := push_all (runs_from [] rest2) [] }
        else relative
      | _ => relative
    else relative

/-- A first component that the `_WIN32` branch of `parse` takes as a drive root when it is
followed by a separator or by nothing: a letter and a colon. -/
def drive_like (p : U32String) : Bool :=
  match p with
  | [c, 58] => isalpha c
  | _ => false

/-! ## Concrete collaborators for the examples -/

/-- A record of a directory, of a block device and of a regular file of 12 bytes. -/
def dir_record : Stat := { st_mode := 0o040755, st_size := 4096, st_atime := 10, st_mtime := 20 }
def blk_record : Stat := { st_mode := 0o060660, st_size := 0, st_atime := 30, st_mtime := 40 }
def reg_record : Stat := { st_mode := 0o100644, st_size := 12, st_atime := 50, st_mtime := 60 }

/-- The indeterminate content of `m_stat` in the examples. -/
def junk_record : Stat := { st_mode := 0, st_size := 0, st_atime := 0, st_mtime := 0 }

/-- A file system that holds the directory `/`, the block device `/dev/sda` and the regular
file `/f`, and nothing else; the encoder is the identity on code points below 128 and the
datetime is the raw timestamp. -/
def example_env : Env Int :=
  { encode := fun s => s,
    sys_stat := fun s =>
      if s = u32 "/" then some dir_record
      else if s = u32 "/dev/sda" then some blk_record
      else if s = u32 "/f" then some reg_record
      else none,
    timestamp := fun t => t }

/-- The object that `path(U"/dev/sda")` constructs. -/
def sda_path : Path :=
  { m_full_path := u32 "/dev/sda", m_root := u32 "/", m_parts := [u32 "dev", u32 "sda"],
    m_stat_state := .stat_state_uninitialized, m_stat := junk_record }

/-- The program `path p(U"/nope"); p.exists(); p = U"/"; return p.exists();` run against
`example_env`: the answer of the last call and the object with its log of `::stat` calls. -/
def reassign_source_run : Option (Bool × Traced) :=
  (Path.of_source junk_record (u32 "/nope")).bind fun p =>
  let first := Path.exists_ example_env { path := p, calls := [] }
  (first.2.path.assign_source (u32 "/")).map fun p2 =>
  Path.exists_ example_env { path := p2, calls := first.2.calls }

/-- The program `path q(U"/f"); q.is_file(); q = path(U"/"); return q.is_file();` run against
`example_env`. -/
def reassign_path_run : Option (Bool × Traced) :=
  (Path.of_source junk_record (u32 "/f")).bind fun q =>
  (Path.of_source junk_record (u32 "/")).map fun d =>
  let first := Path.is_file example_env { path := q, calls := [] }
  Path.is_file example_env { path := first.2.path.assign d, calls := first.2.calls }

/-! ## Definitions for the claims on scanning and on reachable values -/

/-- Following the words of the specification, not the loop of `parse`: the non-empty maximal
runs of characters that are not separators, in order. The string is split at every separator
and the empty pieces are left out. -/
def reference_runs (s : U32String) : List U32String :=
  (s.splitOnP is_separator).filter fun r => !r.isEmpty

/-- The left fold of `append_part` over a list of candidates, starting from `parts`. -/
def fold_append_part : List U32String → List U32String → Option (List U32String)
  | [], parts => some parts
  | c :: cs, parts => (append_part c parts).bind fun next => fold_append_part cs next

/-- The path values that the constructors and the two `assign` methods produce. -/
inductive Reachable : Path → Prop where
  | new (junk : Stat) : Reachable (Path.new junk)
  | of_source (junk : Stat) (source : U32String) (p : Path) :
      Path.of_source junk source = some p → Reachable p
  | copy (that : Path) : Reachable that → Reachable (Path.copy that)
  | assign (self that : Path) : Reachable self → Reachable that → Reachable (self.assign that)
  | assign_source (self : Path) (source : U32String) (p : Path) :
      Reachable self → self.assign_source source = some p → Reachable p

/-! ## Lemmas on string comparison -/

theorem u32compare_self (a : U32String) : u32compare a a = 0 := by
  induction a with
  | nil => rfl
  | cons x xs ih => simp [u32compare, ih]

theorem u32compare_eq_zero (a b : U32String) : u32compare a b = 0 ↔ a = b := by
  induction a generalizing b with
  | nil => cases b <;> simp [u32compare]
  | cons x xs ih =>
    cases b with
    | nil => simp [u32compare]
    | cons y ys =>
      simp only [u32compare]
      split
      · rename_i h; constructor
        · intro h0; omega
        · intro he; simp at he; omega
      · split
        · rename_i h1 h2; constructor
          · intro h0; omega
          · intro he; simp at he; omega
        · rename_i h1 h2
          have hxy : x = y := by omega
          simp [ih, hxy]

theorem u32compare_range (a b : U32String) :
    u32compare a b = -1 ∨ u32compare a b = 0 ∨ u32compare a b = 1 := by
  induction a generalizing b with
  | nil => cases b <;> simp [u32compare]
  | cons x xs ih =>
    cases b with
    | nil => simp [u32compare]
    | cons y ys =>
      simp only [u32compare]
      split
      · simp
      · split
        · simp
        · exact ih ys

theorem u32compare_swap (a b : U32String) : u32compare b a = - u32compare a b := by
  induction a generalizing b with
  | nil => cases b <;> simp [u32compare]
  | cons x xs ih =>
    cases b with
    | nil => simp [u32compare]
    | cons y ys =>
      simp only [u32compare]
      by_cases h1 : x < y
      · have h2 : ¬ y < x := by omega
        simp [h1, h2]
      · by_cases h2 : y < x
        · simp [h1, h2]
        · simp [h1, h2, ih]

theorem u32compare_neg_iff (a b : U32String) :
    u32compare a b < 0 ↔ List.Lex (fun x y : Nat => x < y) a b := by
  induction a generalizing b with
  | nil =>
    cases b with
    | nil => simp [u32compare]
    | cons y ys => simp only [u32compare]; exact ⟨fun _ => List.Lex.nil, fun _ => by omega⟩
  | cons x xs ih =>
    cases b with
    | nil =>
      simp only [u32compare]
      constructor
      · intro h; omega
      · intro h; cases h
    | cons y ys =>
      simp only [u32compare]
      by_cases h1 : x < y
      · simp only [h1, if_true]
        constructor
        · intro _; exact List.Lex.rel h1
        · intro _; omega
      · by_cases h2 : y < x
        · simp only [h1, h2, if_true, if_false]
          constructor
          · intro h; omega
          · intro h
            cases h with
            | rel h => exact absurd h h1
            | cons h => omega
        · simp only [h1, h2, if_false]
          rw [ih ys]
          have hxy : x = y := by omega
          subst hxy
          constructor
          · intro h; exact List.Lex.cons h
          · intro h
            cases h with
            | rel h => exact absurd h h1
            | cons h => exact h

theorem u32compare_trans (a b c : U32String) (h1 : u32compare a b ≤ 0)
    (h2 : u32compare b c ≤ 0) : u32compare a c ≤ 0 := by
  induction a generalizing b c with
  | nil => cases c <;> simp [u32compare]
  | cons x xs ih =>
    cases b with
    | nil => simp [u32compare] at h1
    | cons y ys =>
      cases c with
      | nil => simp [u32compare] at h2
      | cons z zs =>
        simp only [u32compare] at h1 h2 ⊢
        by_cases hxy : x < y
        · by_cases hyz : y < z
          · have : x < z := by omega
            simp [this]
          · by_cases hzy : z < y
            · simp [hyz, hzy] at h2
            · have : x < z := by omega
              simp [this]
        · by_cases hyx : y < x
          · simp [hxy, hyx] at h1
          · have hxy2 : x = y := by omega
            subst hxy2
            simp only [hxy, if_false] at h1
            by_cases hxz : x < z
            · simp [hxz]
            · by_cases hzx : z < x
              · simp [hxz, hzx] at h2
              · simp only [hxz, hzx, if_false] at h2 ⊢
                exact ih ys zs h1 h2

theorem Path.compare_eq (A B : Path) :
    A.compare B = u32compare A.m_full_path B.m_full_path := by
  unfold Path.compare Path.empty
  cases hA : A.m_full_path with
  | nil => cases hB : B.m_full_path <;> simp [u32compare]
  | cons x xs => simp

theorem equals_spec_aux (A B : Path) :
    A.equals B = true ↔ A.m_full_path = B.m_full_path := by
  unfold Path.equals Path.empty
  cases hA : A.m_full_path with
  | nil => cases hB : B.m_full_path <;> simp
  | cons x xs => simp [u32compare_eq_zero]

/-! ## Lemmas on the parser -/

theorem append_part_eq (input : U32String) (parts : List U32String) :
    append_part input parts = some (push_part input parts) := by
  unfold append_part push_part char_at
  match input with
  | [] => simp
  | [c] => by_cases hc : c = 46 <;> by_cases hp : parts = [] <;> simp [hc, hp]
  | [c, d] =>
    by_cases hc : c = 46 <;> by_cases hd : d = 46 <;> by_cases hp : parts = [] <;>
      simp [hc, hd, hp]
  | c :: d :: e :: r => by_cases hc : c = 46 <;> simp [hc]

theorem char_at_append (pre cur rest : U32String) (c : Nat) :
    char_at (pre ++ cur ++ c :: rest) (pre.length + cur.length) = some c := by
  unfold char_at
  rw [← List.length_append, List.getElem?_append_right (Nat.le_refl _)]
  simp

theorem substr_append (pre cur rest : U32String) :
    substr (pre ++ cur ++ rest) pre.length cur.length = some cur := by
  unfold substr
  simp [List.append_assoc]

theorem substr_from_append (pre cur : U32String) :
    substr_from (pre ++ cur) pre.length = some cur := by
  unfold substr_from
  simp

theorem scan_loop_spec (rest : U32String) :
    ∀ (source pre cur : U32String) (parts : List U32String), source = pre ++ cur ++ rest →
    ∃ st, scan_loop source rest.length (pre.length + cur.length)
        { begin := pre.length, end_ := cur.length, parts := parts } = some st ∧
      (if 0 < st.end_ then
        (substr_from source st.begin).bind fun part => append_part part st.parts
       else some st.parts) = some (push_all (runs_from cur rest) parts) := by
  induction rest with
  | nil =>
    intro source pre cur parts hs
    refine ⟨_, rfl, ?_⟩
    subst hs
    cases cur with
    | nil => simp [runs_from, push_all]
    | cons x xs =>
      simp [runs_from, push_all, substr_from_append, append_part_eq]
  | cons c rest ih =>
    intro source pre cur parts hs
    simp only [List.length_cons, scan_loop, scan_body]
    rw [hs, char_at_append, ← hs]
    by_cases hc : is_separator c = true
    · have hs2 : source = (pre ++ cur ++ [c]) ++ [] ++ rest := by simp [hs]
      cases cur with
      | nil =>
        obtain ⟨st, h1, h2⟩ := ih source (pre ++ [] ++ [c]) [] parts hs2
        refine ⟨st, ?_, ?_⟩
        · simp only [List.length_nil, List.append_nil, List.length_append, List.length_singleton,
            Nat.add_zero] at h1 ⊢
          simpa [hc] using h1
        · simpa [runs_from, hc] using h2
      | cons x xs =>
        obtain ⟨st, h1, h2⟩ := ih source (pre ++ (x :: xs) ++ [c]) [] (push_part (x :: xs) parts) hs2
        refine ⟨st, ?_, ?_⟩
        · have hsub : substr source pre.length (x :: xs).length = some (x :: xs) := by
            rw [hs]; exact substr_append _ _ _
          simp only [List.length_nil, Nat.add_zero, List.length_append, List.length_cons,
            Nat.zero_add] at h1 hsub
          simp only [Option.some_bind, hc, if_true, hsub, append_part_eq, List.length_cons,
            Nat.zero_lt_succ]
          exact h1
        · simpa [runs_from, hc, push_all] using h2
    · have hs2 : source = pre ++ (cur ++ [c]) ++ rest := by simp [hs]
      obtain ⟨st, h1, h2⟩ := ih source pre (cur ++ [c]) parts hs2
      refine ⟨st, ?_, ?_⟩
      · simp only [List.length_append, List.length_singleton] at h1
        simpa [hc, Nat.add_assoc] using h1
      · simpa [runs_from, hc] using h2

theorem sep_free_nil : sep_free [] = true := rfl

theorem sep_free_append (a b : U32String) :
    sep_free (a ++ b) = true ↔ sep_free a = true ∧ sep_free b = true := by
  simp [sep_free, List.all_append]

theorem sep_free_cons (c : Nat) (a : U32String) :
    sep_free (c :: a) = true ↔ is_separator c = false ∧ sep_free a = true := by
  simp [sep_free]

theorem back_append_ok (r q : U32String) (hq : q ≠ []) (hf : sep_free q = true) :
    ∃ c, back (r ++ q) = some c ∧ is_separator c = false := by
  obtain ⟨c, hc⟩ : ∃ c, q.getLast? = some c := by
    cases h : q.getLast? with
    | none => exact absurd (List.getLast?_eq_none_iff.mp h) hq
    | some c => exact ⟨c, rfl⟩
  refine ⟨c, ?_, ?_⟩
  · simp [back, hc]
  · have hmem := List.mem_of_getLast?_eq_some hc
    simp only [sep_free, List.all_eq_true] at hf
    simpa using hf c hmem

theorem compile_loop_spec (win32 : Bool) (todo : List U32String) :
    ∀ (done : List U32String) (result : U32String),
    (∀ p ∈ todo, p ≠ [] ∧ sep_free p = true) → done ≠ [] →
    (∃ c, back result = some c ∧ is_separator c = false) →
    compile_loop win32 (done ++ todo) todo.length done.length result
      = some (result ++ glue (separator win32) todo) := by
  induction todo with
  | nil => intro done result _ _ _; simp [compile_loop, glue]
  | cons q qs ih =>
    intro done result hall hdone hback
    obtain ⟨c, hc1, hc2⟩ := hback
    have hq := hall q (List.mem_cons_self _ _)
    have hpos : 0 < done.length := List.length_pos.mpr hdone
    have hget : (done ++ q :: qs)[done.length]? = some q := by
      rw [List.getElem?_append_right (Nat.le_refl _)]; simp
    simp only [List.length_cons, compile_loop, hpos, if_true, hc1, Option.map_some',
      Option.some_bind, hc2, Bool.not_false, hget]
    have h := ih (done ++ [q]) (result ++ [separator win32] ++ q)
      (fun p hp => hall p (List.mem_cons_of_mem _ hp)) (by simp)
      (back_append_ok _ q hq.1 hq.2)
    simp only [List.append_assoc, List.singleton_append, List.length_append,
      List.length_singleton] at h
    simp only [List.append_assoc, List.singleton_append, glue]
    exact h

theorem compile_path_spec (win32 : Bool) (root : U32String) (parts : List U32String)
    (hall : ∀ p ∈ parts, p ≠ [] ∧ sep_free p = true) :
    compile_path win32 root parts = some (root ++ join_with (separator win32) parts) := by
  have hroot : (if root ≠ [] then [] ++ root else []) = root := by
    cases root <;> simp
  unfold compile_path
  rw [hroot]
  cases parts with
  | nil => simp [compile_loop, join_with]
  | cons p ps =>
    have hp := hall p (List.mem_cons_self _ _)
    simp only [List.length_cons, compile_loop, Nat.lt_irrefl, if_false, Option.some_bind,
      List.getElem?_cons_zero, Bool.false_eq_true]
    have h := compile_loop_spec win32 ps [p] (root ++ p)
      (fun q hq => hall q (List.mem_cons_of_mem _ hq)) (by simp)
      (back_append_ok _ p hp.1 hp.2)
    simp only [List.singleton_append, List.length_singleton] at h
    rw [Nat.zero_add, h]
    simp [join_with]

theorem runs_from_ok (rest : U32String) :
    ∀ cur : U32String, sep_free cur = true →
    ∀ r ∈ runs_from cur rest, r ≠ [] ∧ sep_free r = true := by
  induction rest with
  | nil =>
    intro cur hcur r hr
    by_cases h : cur = []
    · simp [runs_from, h] at hr
    · simp only [runs_from, h, if_false, List.mem_singleton] at hr
      subst hr; exact ⟨h, hcur⟩
  | cons c rest ih =>
    intro cur hcur r hr
    by_cases hc : is_separator c = true
    · by_cases h : cur = []
      · simp only [runs_from, hc, h, if_true] at hr
        exact ih [] sep_free_nil r hr
      · simp only [runs_from, hc, h, if_true, if_false, List.mem_cons] at hr
        rcases hr with hr | hr
        · subst hr; exact ⟨h, hcur⟩
        · exact ih [] sep_free_nil r hr
    · simp only [runs_from, hc, if_false] at hr
      refine ih (cur ++ [c]) ?_ r hr
      rw [sep_free_append]
      refine ⟨hcur, ?_⟩
      rw [sep_free_cons]
      exact ⟨by simpa using hc, sep_free_nil⟩

theorem push_part_ok (input : U32String) (parts : List U32String)
    (hin : input ≠ [] ∧ sep_free input = true)
    (hall : ∀ p ∈ parts, p ≠ [] ∧ sep_free p = true) :
    ∀ p ∈ push_part input parts, p ≠ [] ∧ sep_free p = true := by
  intro p hp
  unfold push_part at hp
  split at hp
  · exact hall p hp
  · split at hp
    · exact hall p (List.mem_of_mem_dropLast hp)
    · split at hp
      · exact hall p hp
      · rcases List.mem_append.mp hp with h | h
        · exact hall p h
        · simp only [List.mem_singleton] at h
          subst h; exact hin

theorem push_all_ok (candidates : List U32String) :
    ∀ parts : List U32String,
    (∀ c ∈ candidates, c ≠ [] ∧ sep_free c = true) →
    (∀ p ∈ parts, p ≠ [] ∧ sep_free p = true) →
    ∀ p ∈ push_all candidates parts, p ≠ [] ∧ sep_free p = true := by
  induction candidates with
  | nil => intro parts _ hall; simpa [push_all] using hall
  | cons c cs ih =>
    intro parts hc hall
    have := ih (push_part c parts) (fun x hx => hc x (List.mem_cons_of_mem _ hx))
      (push_part_ok c parts (hc c (List.mem_cons_self _ _)) hall)
    simpa [push_all] using this

theorem parts_ok (rest : U32String) :
    ∀ p ∈ push_all (runs_from [] rest) [], p ≠ [] ∧ sep_free p = true :=
  push_all_ok _ [] (runs_from_ok rest [] sep_free_nil) (by simp)

theorem scan_and_compile_eq (win32 : Bool) (pre rest fp root : U32String) :
    scan_and_compile win32 (pre ++ rest) pre.length { full_path := fp, root := root, parts := [] }
      = some { full_path := root ++ join_with (separator win32) (push_all (runs_from [] rest) []),
               root := root,
               parts := push_all (runs_from [] rest) [] } := by
  obtain ⟨st, h1, h2⟩ := scan_loop_spec rest (pre ++ rest) pre [] [] (by simp)
  have hlen : (pre ++ rest).length - pre.length = rest.length := by simp
  simp only [List.length_nil, Nat.add_zero] at h1
  unfold scan_and_compile
  simp only [hlen, h1, Option.some_bind, h2, compile_path_spec win32 root _ (parts_ok rest)]

theorem parse_eq (win32 : Bool) (source : U32String) :
    parse win32 source { full_path := [], root := [], parts := [] }
      = some (parse_value win32 source) := by
  cases source with
  | nil => simp [parse, parse_value]
  | cons c rest =>
    have hrel := scan_and_compile_eq win32 [] (c :: rest) [] []
    simp only [List.nil_append, List.length_nil] at hrel
    unfold parse parse_value
    simp only [List.length_cons, Nat.add_one_ne_zero, if_false, char_at,
      List.getElem?_cons_zero, Option.some_bind]
    by_cases hc : is_separator c = true
    · simp only [hc, if_true, substr, Nat.zero_le, List.drop_zero, List.take_succ_cons,
        List.take_zero, Option.some_bind]
      cases rest with
      | nil => simp [runs_from, push_all, join_with]
      | cons d rest2 =>
        have h := scan_and_compile_eq win32 [c] (d :: rest2) [] [c]
        simp only [List.singleton_append, List.length_singleton] at h
        simp [h]
    · simp only [hc, if_false, Bool.false_eq_true]
      by_cases hw : win32 = true
      · by_cases ha : isalpha c = true
        · simp only [hw, ha, if_true, and_true, true_and]
          cases rest with
          | nil => simpa [hw] using hrel
          | cons d rest1 =>
            by_cases hd : d = 58
            · subst hd
              cases rest1 with
              | nil => simp
              | cons e rest2 =>
                by_cases he : is_separator e = true
                · have h := scan_and_compile_eq true [c, 58, e] rest2 [] [c, 58]
                  simp only [List.cons_append, List.nil_append, List.length_cons,
                    List.length_nil] at h
                  simp [he, substr, h]
                · simpa [he, hw] using hrel
            · simpa [hd, hw] using hrel
        · simpa [hw, ha] using hrel
      · simpa [hw] using hrel

theorem push_part_tail (input : U32String) (parts : List U32String)
    (htail : ∀ p ∈ parts.tail, p ≠ dot ∧ p ≠ dotdot) :
    ∀ p ∈ (push_part input parts).tail, p ≠ dot ∧ p ≠ dotdot := by
  intro p hp
  unfold push_part at hp
  split at hp
  · exact htail p hp
  · split at hp
    · cases parts with
      | nil => simp at hp
      | cons h t =>
        cases t with
        | nil => simp at hp
        | cons h2 t2 =>
          simp only [List.dropLast_cons₂, List.tail_cons] at hp
          exact htail p (List.mem_of_mem_dropLast hp)
    · split at hp
      · exact htail p hp
      · rename_i h1 h2 h3
        cases parts with
        | nil => simp at hp
        | cons h t =>
          simp only [List.cons_append, List.tail_cons, List.mem_append,
            List.mem_singleton] at hp
          rcases hp with hp | hp
          · exact htail p hp
          · subst hp
            constructor
            · intro hd; exact h3 ⟨hd, by simp⟩
            · intro hd; exact h2 ⟨hd, by simp⟩

theorem push_all_tail (candidates : List U32String) :
    ∀ parts : List U32String, (∀ p ∈ parts.tail, p ≠ dot ∧ p ≠ dotdot) →
    ∀ p ∈ (push_all candidates parts).tail, p ≠ dot ∧ p ≠ dotdot := by
  induction candidates with
  | nil => intro parts h; simpa [push_all] using h
  | cons c cs ih =>
    intro parts h
    have := ih (push_part c parts) (push_part_tail c parts h)
    simpa [push_all] using this

theorem runs_from_append (p : U32String) :
    ∀ (cur rest : U32String), sep_free p = true →
    runs_from cur (p ++ rest) = runs_from (cur ++ p) rest := by
  induction p with
  | nil => intro cur rest _; simp
  | cons c p ih =>
    intro cur rest h
    rw [sep_free_cons] at h
    have := ih (cur ++ [c]) rest h.2
    simp only [List.cons_append, runs_from, h.1, Bool.false_eq_true, if_false]
    simpa using this

theorem runs_from_glue (sep : Nat) (hsep : is_separator sep = true) (ps : List U32String) :
    ∀ p : U32String, p ≠ [] → (∀ q ∈ ps, q ≠ [] ∧ sep_free q = true) →
    runs_from p (glue sep ps) = p :: ps := by
  induction ps with
  | nil => intro p hp _; simp [glue, runs_from, hp]
  | cons q qs ih =>
    intro p hp hall
    have hq := hall q (List.mem_cons_self _ _)
    simp only [glue, List.cons_append, runs_from, hsep, if_true, hp, if_false, List.cons.injEq,
      true_and]
    show runs_from [] (q ++ glue sep qs) = q :: qs
    rw [runs_from_append q [] _ hq.2]
    exact ih q hq.1 (fun x hx => hall x (List.mem_cons_of_mem _ hx))

theorem runs_from_join (sep : Nat) (hsep : is_separator sep = true) (parts : List U32String)
    (hall : ∀ q ∈ parts, q ≠ [] ∧ sep_free q = true) :
    runs_from [] (join_with sep parts) = parts := by
  cases parts with
  | nil => simp [join_with, runs_from]
  | cons p ps =>
    have hp := hall p (List.mem_cons_self _ _)
    simp only [join_with]
    rw [runs_from_append p [] _ hp.2]
    exact runs_from_glue sep hsep ps p hp.1 (fun x hx => hall x (List.mem_cons_of_mem _ hx))

theorem push_all_ordinary (cs : List U32String) :
    ∀ acc : List U32String, (∀ c ∈ cs, c ≠ [] ∧ c ≠ dot ∧ c ≠ dotdot) →
    push_all cs acc = acc ++ cs := by
  induction cs with
  | nil => intro acc _; simp [push_all]
  | cons c cs ih =>
    intro acc h
    obtain ⟨h1, h2, h3⟩ := h c (List.mem_cons_self _ _)
    have hstep : push_part c acc = acc ++ [c] := by
      unfold push_part
      simp only [dot, dotdot] at h2 h3
      simp [h1, h2, h3]
    have := ih (acc ++ [c]) (fun x hx => h x (List.mem_cons_of_mem _ hx))
    simp only [push_all, List.foldl_cons, hstep] at this ⊢
    simpa using this

theorem push_all_fixed (parts : List U32String)
    (hall : ∀ q ∈ parts, q ≠ [] ∧ sep_free q = true)
    (htail : ∀ p ∈ parts.tail, p ≠ dot ∧ p ≠ dotdot) :
    push_all parts [] = parts := by
  cases parts with
  | nil => rfl
  | cons p ps =>
    have hp := hall p (List.mem_cons_self _ _)
    have hstep : push_part p [] = [p] := by simp [push_part, hp.1]
    have := push_all_ordinary ps [p] (fun c hc =>
      ⟨(hall c (List.mem_cons_of_mem _ hc)).1, htail c hc⟩)
    simp only [push_all, List.foldl_cons, hstep] at this ⊢
    simpa using this

theorem parts_tail (rest : U32String) :
    ∀ p ∈ (push_all (runs_from [] rest) []).tail, p ≠ dot ∧ p ≠ dotdot :=
  push_all_tail _ [] (by simp)

theorem reparse_parts (rest : U32String) :
    push_all (runs_from [] (join_with 47 (push_all (runs_from [] rest) []))) []
      = push_all (runs_from [] rest) [] := by
  rw [runs_from_join 47 (by decide) _ (parts_ok rest)]
  exact push_all_fixed _ (parts_ok rest) (parts_tail rest)

theorem parse_value_idempotent (source : U32String) :
    parse_value false (parse_value false source).full_path = parse_value false source := by
  cases source with
  | nil => simp [parse_value]
  | cons c rest =>
    by_cases hc : is_separator c = true
    · simp only [parse_value, hc, if_true, separator, Bool.false_eq_true, if_false]
      rw [reparse_parts rest]
    · simp only [parse_value, hc, if_false, separator, Bool.false_eq_true, false_and]
      have hok := parts_ok (c :: rest)
      have hre := reparse_parts (c :: rest)
      generalize push_all (runs_from [] (c :: rest)) [] = parts at hok hre ⊢
      cases parts with
      | nil => simp [join_with]
      | cons p ps =>
        obtain ⟨hp1, hp2⟩ := hok p (List.mem_cons_self _ _)
        cases p with
        | nil => exact absurd rfl hp1
        | cons x xs =>
          rw [sep_free_cons] at hp2
          simp only [join_with, List.cons_append] at hre ⊢
          simp only [hp2.1, Bool.false_eq_true, if_false, hre]
          rfl

theorem push_all_append (a b : List U32String) (acc : List U32String) :
    push_all (a ++ b) acc = push_all b (push_all a acc) := by
  simp [push_all, List.foldl_append]

theorem is_segment_spec (s : U32String) (h : is_segment s = true) :
    s ≠ [] ∧ sep_free s = true ∧ s ≠ dot ∧ s ≠ dotdot := by
  unfold is_segment at h
  simp only [Bool.and_eq_true, Bool.not_eq_true', decide_eq_true_eq] at h
  obtain ⟨⟨⟨h1, h2⟩, h3⟩, h4⟩ := h
  refine ⟨?_, h2, h3, h4⟩
  intro hs; subst hs; simp at h1

theorem push_all_segments (S : List U32String) (acc : List U32String)
    (hS : ∀ s ∈ S, is_segment s = true) : push_all S acc = acc ++ S :=
  push_all_ordinary S acc (fun c hc =>
    ⟨(is_segment_spec c (hS c hc)).1, (is_segment_spec c (hS c hc)).2.2⟩)

theorem push_all_cancel (S : List U32String) (x : U32String) (acc : List U32String)
    (hS : ∀ s ∈ S, is_segment s = true) (hx : is_segment x = true) :
    push_all (S ++ [x, dotdot]) acc = push_all S acc := by
  have hx2 := is_segment_spec x hx
  rw [push_all_append, push_all_segments S acc hS]
  have h1 : push_part x (acc ++ S) = acc ++ S ++ [x] := by
    have := push_all_segments [x] (acc ++ S) (by simpa using hx)
    simpa [push_all] using this
  have h2 : push_part dotdot (acc ++ S ++ [x]) = acc ++ S := by
    unfold push_part
    simp [dotdot]
  simp only [push_all, List.foldl_cons, List.foldl_nil, h1, h2]

theorem parse_value_join_parts (win32 : Bool) (sep : Nat) (hsep : is_separator sep = true)
    (p : U32String) (ps : List U32String)
    (hall : ∀ q ∈ p :: ps, q ≠ [] ∧ sep_free q = true) :
    (parse_value win32 (join_with sep (p :: ps))).parts =
      if win32 = true ∧ drive_like p = true then push_all ps [] else push_all (p :: ps) [] := by
  have hrel : push_all (runs_from [] (join_with sep (p :: ps))) [] = push_all (p :: ps) [] := by
    rw [runs_from_join sep hsep _ hall]
  have hps : ∀ q ∈ ps, q ≠ [] ∧ sep_free q = true := fun q hq => hall q (List.mem_cons_of_mem _ hq)
  have htail : push_all (runs_from [] (join_with sep ps)) [] = push_all ps [] := by
    rw [runs_from_join sep hsep _ hps]
  have hsep58 : sep ≠ 58 := by
    intro h; subst h; simp [is_separator] at hsep
  obtain ⟨hp1, hp2⟩ := hall p (List.mem_cons_self _ _)
  cases p with
  | nil => exact absurd rfl hp1
  | cons c cs =>
    rw [sep_free_cons] at hp2
    obtain ⟨hc, hcs⟩ := hp2
    simp only [join_with, List.cons_append] at hrel ⊢
    unfold parse_value
    simp only [hc, Bool.false_eq_true, if_false]
    by_cases hw : win32 = true ∧ isalpha c = true
    · simp only [hw, and_self, if_true, true_and]
      cases cs with
      | nil =>
        have hd : drive_like [c] = false := rfl
        simp only [hd, Bool.false_eq_true, if_false, List.nil_append]
        cases ps with
        | nil => simpa [glue] using hrel
        | cons q qs =>
          simp only [glue, List.cons_append, List.nil_append] at hrel ⊢
          split
          · rename_i heq; simp only [List.cons.injEq] at heq; exact absurd heq.1 hsep58
          · rename_i heq; simp only [List.cons.injEq] at heq; exact absurd heq.1 hsep58
          · exact hrel
      | cons e cs1 =>
        by_cases he : e = 58
        · subst he
          cases cs1 with
          | nil =>
            have hd : drive_like [c, 58] = true := by simp [drive_like, hw.2]
            simp only [hd, if_true, List.cons_append, List.nil_append]
            cases ps with
            | nil => simp [glue, push_all]
            | cons q qs =>
              simp only [join_with] at htail
              simp only [glue, List.cons_append, hsep, if_true]
              exact htail
          | cons f cs2 =>
            have hd : drive_like (c :: 58 :: f :: cs2) = false := rfl
            rw [sep_free_cons, sep_free_cons] at hcs
            simp only [hd, Bool.false_eq_true, if_false, List.cons_append, hcs.2.1]
            exact hrel
        · have hd : drive_like (c :: e :: cs1) = false := by
            unfold drive_like
            split
            · rename_i heq; simp only [List.cons.injEq] at heq; exact absurd heq.2.1 he
            · rfl
          simp only [hd, Bool.false_eq_true, if_false, List.cons_append]
          split
          · rename_i heq; simp only [List.cons.injEq] at heq; exact absurd heq.1 he
          · rename_i heq; simp only [List.cons.injEq] at heq; exact absurd heq.1 he
          · exact hrel
    · have hd : (win32 = true ∧ drive_like (c :: cs) = true) = False := by
        apply eq_false
        intro h
        apply hw
        refine ⟨h.1, ?_⟩
        have h2 := h.2
        unfold drive_like at h2
        split at h2
        · rename_i heq; simp only [List.cons.injEq] at heq; rw [heq.1]; exact h2
        · simp at h2
      simp only [hw, hd, if_false]
      exact hrel

/-! ## Lemmas on the metadata cache -/

theorem stat_failure {D : Type} (env : Env D) (t : Traced)
    (h : t.path.m_stat_state = .stat_state_failure) : Path.stat env t = (false, t) := by
  simp [Path.stat, h]

theorem stat_success {D : Type} (env : Env D) (t : Traced)
    (h : t.path.m_stat_state = .stat_state_success) : Path.stat env t = (true, t) := by
  simp [Path.stat, h]

theorem stat_uninitialized {D : Type} (env : Env D) (t : Traced)
    (h : t.path.m_stat_state = .stat_state_uninitialized) :
    (Path.stat env t).2.calls = t.calls ++ [env.encode t.path.m_full_path] ∧
    (Path.stat env t).2.path.m_stat_state ≠ .stat_state_uninitialized ∧
    (Path.stat env t).2.path.m_full_path = t.path.m_full_path := by
  unfold Path.stat
  simp only [h]
  cases env.sys_stat (env.encode t.path.m_full_path) <;> simp

theorem call_run_cases {D : Type} (env : Env D) (c : Call) (t : Traced) :
    (c.run env t).2 = t ∨ (c.run env t).2 = (Path.stat env t).2 := by
  cases c <;>
    simp only [Call.run, Path.exists_, Path.is_dir, Path.is_file, Path.is_symlink,
      Path.is_socket, Path.is_fifo, Path.is_char_device, Path.is_block_device, Path.size,
      Path.last_access, Path.last_modified, stat_and] <;>
    (repeat' split) <;> simp

theorem call_run_failure {D : Type} (env : Env D) (c : Call) (t : Traced)
    (h : t.path.m_stat_state = .stat_state_failure) :
    (c.run env t).2 = t ∧ (c.run env t).1.negative = true := by
  cases c <;>
    simp only [Call.run, Path.exists_, Path.is_dir, Path.is_file, Path.is_symlink,
      Path.is_socket, Path.is_fifo, Path.is_char_device, Path.is_block_device, Path.size,
      Path.last_access, Path.last_modified, stat_and, stat_failure env t h] <;>
    (repeat' split) <;> simp_all [Answer.negative]

theorem call_run_success {D : Type} (env : Env D) (c : Call) (t : Traced)
    (h : t.path.m_stat_state = .stat_state_success) : (c.run env t).2 = t := by
  rcases call_run_cases env c t with h1 | h1
  · exact h1
  · rw [h1, stat_success env t h]

theorem run_calls_append {D : Type} (env : Env D) (pre : List Call) :
    ∀ (post : List Call) (t : Traced),
    run_calls env (pre ++ post) t =
      ((run_calls env pre t).1 ++ (run_calls env post (run_calls env pre t).2).1,
       (run_calls env post (run_calls env pre t).2).2) := by
  induction pre with
  | nil => intro post t; simp [run_calls]
  | cons c cs ih => intro post t; simp [run_calls, ih]

theorem run_calls_failure {D : Type} (env : Env D) (cs : List Call) :
    ∀ t : Traced, t.path.m_stat_state = .stat_state_failure →
    (run_calls env cs t).2 = t ∧ ∀ a ∈ (run_calls env cs t).1, a.negative = true := by
  induction cs with
  | nil => intro t _; simp [run_calls]
  | cons c cs ih =>
    intro t h
    obtain ⟨h1, h2⟩ := call_run_failure env c t h
    have h3 := ih t h
    simp only [run_calls, h1, List.mem_cons]
    refine ⟨h3.1, ?_⟩
    intro a ha
    rcases ha with ha | ha
    · rw [ha]; exact h2
    · exact h3.2 a ha

theorem run_calls_success {D : Type} (env : Env D) (cs : List Call) :
    ∀ t : Traced, t.path.m_stat_state = .stat_state_success → (run_calls env cs t).2 = t := by
  induction cs with
  | nil => intro t _; simp [run_calls]
  | cons c cs ih =>
    intro t h
    simp only [run_calls, call_run_success env c t h]
    exact ih t h

theorem run_calls_settled {D : Type} (env : Env D) (cs : List Call) (t : Traced)
    (h : t.path.m_stat_state ≠ .stat_state_uninitialized) : (run_calls env cs t).2 = t := by
  cases hs : t.path.m_stat_state with
  | stat_state_uninitialized => exact absurd hs h
  | stat_state_success => exact run_calls_success env cs t hs
  | stat_state_failure => exact (run_calls_failure env cs t hs).1

theorem run_calls_count {D : Type} (env : Env D) (cs : List Call) :
    ∀ t : Traced, t.path.m_stat_state = .stat_state_uninitialized →
    (run_calls env cs t).2.calls.length ≤ t.calls.length + 1 := by
  induction cs with
  | nil => intro t _; simp [run_calls]
  | cons c cs ih =>
    intro t h
    simp only [run_calls]
    rcases call_run_cases env c t with h1 | h1
    · rw [h1]; exact ih t h
    · obtain ⟨h2, h3, _⟩ := stat_uninitialized env t h
      rw [h1, run_calls_settled env cs _ h3, h2]
      simp

/-! ## The claims -/

/-- C1. Idempotence of normalization in the build without `_WIN32`: for every source string,
`parse` returns a result `r`, and parsing `r.full_path` returns the same root, the same parts
and the same full path (the same triple `r`). -/
theorem parse_idempotent (source : U32String) :
    ∃ r : Parsed, parse false source Parsed.clear = some r ∧
      parse false r.full_path Parsed.clear = some r := by
  refine ⟨parse_value false source, parse_eq false source, ?_⟩
  show parse false _ { full_path := [], root := [], parts := [] } = _
  rw [parse_eq, parse_value_idempotent]

/-- Neither `assign` touches `m_stat_state` or `m_stat`: the receiving object keeps the cache
it had. -/
theorem assign_keeps_cache (self that : Path) (source : U32String) :
    (self.assign that).m_stat_state = self.m_stat_state ∧
    (self.assign that).m_stat = self.m_stat ∧
    (self.assign_source source).map (fun p => (p.m_stat_state, p.m_stat))
      = some (self.m_stat_state, self.m_stat) := by
  refine ⟨rfl, rfl, ?_⟩
  unfold Path.assign_source
  rw [parse_eq]
  rfl

/-- C2, the code at the failing inputs. A path parsed from `/nope` is probed and fails; after
`assign(U"/")` the state is still `failure` and `exists()` answers false with no second call
to `::stat` (the log holds `/nope` only), although `::stat` succeeds on `/`. A path parsed
from `/f` is probed and succeeds; after `assign` of a path parsed from `/` the state is still
`success` with the record of `/f`, and `is_file()` answers true with no second call to
`::stat`, although `/` is a directory. -/
theorem assign_leaves_stale_cache :
    reassign_source_run =
      some (false,
        { path := { m_full_path := u32 "/", m_root := u32 "/", m_parts := [],
                    m_stat_state := .stat_state_failure, m_stat := junk_record },
          calls := [u32 "/nope"] }) ∧
    example_env.sys_stat (example_env.encode (u32 "/")) = some dir_record ∧
    reassign_path_run =
      some (true,
        { path := { m_full_path := u32 "/", m_root := u32 "/", m_parts := [],
                    m_stat_state := .stat_state_success, m_stat := reg_record },
          calls := [u32 "/f"] }) ∧
    S_ISREG dir_record.st_mode = false := by
  refine ⟨by decide, by decide, by decide, by decide⟩

/-- C3, the code at the failing input. On the default-constructed (empty) path, with any
collaborators: `is_block_device`, `last_access` and `last_modified` each call `::stat` once
with the encoding of the empty string and leave the cache state decided, and when `::stat`
accepts that path they answer from its record; the other eight accessors make no call and
answer false or no value. -/
theorem empty_path_accessors {D : Type} (env : Env D) (junk : Stat) :
    (∀ c : Call, c = .is_block_device ∨ c = .last_access ∨ c = .last_modified →
      (c.run env { path := Path.new junk, calls := [] }).2.calls = [env.encode []] ∧
      (c.run env { path := Path.new junk, calls := [] }).2.path.m_stat_state
        ≠ .stat_state_uninitialized) ∧
    (∀ record, env.sys_stat (env.encode []) = some record →
      (Path.is_block_device env { path := Path.new junk, calls := [] }).1
        = S_ISBLK record.st_mode ∧
      (Path.last_access env { path := Path.new junk, calls := [] }).1
        = some (env.timestamp record.st_atime) ∧
      (Path.last_modified env { path := Path.new junk, calls := [] }).1
        = some (env.timestamp record.st_mtime)) ∧
    (∀ c : Call, c ≠ .is_block_device → c ≠ .last_access → c ≠ .last_modified →
      (c.run env { path := Path.new junk, calls := [] }).2
        = { path := Path.new junk, calls := [] } ∧
      (c.run env { path := Path.new junk, calls := [] }).1.negative = true) := by
  refine ⟨?_, ?_, ?_⟩
  · intro c hc
    rcases hc with hc | hc | hc <;> subst hc <;>
      simp only [Call.run, Path.is_block_device, Path.last_access, Path.last_modified, stat_and,
        Path.stat, Path.new, Path.empty] <;>
      cases env.sys_stat (env.encode []) <;> simp
  · intro record h
    simp [Path.is_block_device, Path.last_access, Path.last_modified, stat_and, Path.stat,
      Path.new, Path.empty, h]
  · intro c h1 h2 h3
    cases c <;>
      first
        | exact absurd rfl h1
        | exact absurd rfl h2
        | exact absurd rfl h3
        | simp [Call.run, Path.exists_, Path.is_dir, Path.is_file, Path.is_symlink,
            Path.is_socket, Path.is_fifo, Path.is_char_device, Path.size, Path.new, Path.empty,
            Answer.negative]

/-- C4, the code at the failing input. On every non-empty path `is_block_device` answers false
and makes no probe, whatever `::stat` would report. -/
theorem is_block_device_nonempty {D : Type} (env : Env D) (t : Traced)
    (h : t.path.empty = false) : Path.is_block_device env t = (false, t) := by
  simp [Path.is_block_device, h]

/-- C4 at `/dev/sda`: the path parses to a non-empty object, the probe succeeds with the
record of a block device, and `is_block_device` answers false. -/
theorem is_block_device_nonempty_witness :
    Path.of_source junk_record (u32 "/dev/sda") = some sda_path ∧
    (Path.stat example_env { path := sda_path, calls := [] }).1 = true ∧
    S_ISBLK (Path.stat example_env { path := sda_path, calls := [] }).2.path.m_stat.st_mode
      = true ∧
    Path.is_block_device example_env { path := sda_path, calls := [] }
      = (false, { path := sda_path, calls := [] }) :=
  ⟨by decide, by decide, by decide,
   is_block_device_nonempty example_env { path := sda_path, calls := [] } (by decide)⟩

/-- C5. The probe protocol of `path::stat`, one call. In state `failure` it returns false and
leaves the object and the log of `::stat` calls as they were. In state `success` it returns
true and leaves the object (with its stored record) and the log as they were. In state
`uninitialized` it makes one call to `::stat` with the encoded full path; when that succeeds
it stores the record, moves to `success` and returns true; when it fails it moves to
`failure` and returns false. -/
theorem stat_protocol {D : Type} (env : Env D) (t : Traced) :
    (t.path.m_stat_state = .stat_state_failure → Path.stat env t = (false, t)) ∧
    (t.path.m_stat_state = .stat_state_success → Path.stat env t = (true, t)) ∧
    (t.path.m_stat_state = .stat_state_uninitialized →
      (∀ record, env.sys_stat (env.encode t.path.m_full_path) = some record →
        Path.stat env t =
          (true, { path := { t.path with m_stat := record, m_stat_state := .stat_state_success },
                   calls := t.calls ++ [env.encode t.path.m_full_path] })) ∧
      (env.sys_stat (env.encode t.path.m_full_path) = none →
        Path.stat env t =
          (false, { path := { t.path with m_stat_state := .stat_state_failure },
                    calls := t.calls ++ [env.encode t.path.m_full_path] }))) := by
  refine ⟨stat_failure env t, stat_success env t, ?_⟩
  intro h
  constructor
  · intro record hr
    simp [Path.stat, h, hr]
  · intro hr
    simp [Path.stat, h, hr]

/-- C5 at `/dev/sda` in its three states, against `example_env`. -/
theorem stat_protocol_witness :
    Path.stat example_env { path := sda_path, calls := [] }
      = (true, { path := { sda_path with m_stat := blk_record,
                                         m_stat_state := .stat_state_success },
                 calls := [u32 "/dev/sda"] }) ∧
    Path.stat example_env
        { path := { sda_path with m_stat_state := .stat_state_failure }, calls := [] }
      = (false, { path := { sda_path with m_stat_state := .stat_state_failure }, calls := [] }) ∧
    Path.stat example_env
        { path := { sda_path with m_stat_state := .stat_state_success }, calls := [] }
      = (true, { path := { sda_path with m_stat_state := .stat_state_success }, calls := [] }) :=
  ⟨((stat_protocol example_env { path := sda_path, calls := [] }).2.2 rfl).1 blk_record
      (by decide),
   (stat_protocol example_env _).1 rfl,
   (stat_protocol example_env _).2.1 rfl⟩

/-- C6. At-most-once memoization over traces. For every source string the constructor
returns a path, and for every finite sequence of accessor calls on it: `::stat` is called at
most once in total; and at every point of the sequence (after any initial part `before`),
if the state is `success` it is `success` after the remaining calls, and if the state is
`failure` it is `failure` after the remaining calls and each of them answers false or no
value. -/
theorem memoization {D : Type} (env : Env D) (junk : Stat) (source : U32String)
    (calls : List Call) :
    ∃ p, Path.of_source junk source = some p ∧
      (run_calls env calls { path := p, calls := [] }).2.calls.length ≤ 1 ∧
      ∀ before after, calls = before ++ after →
        ((run_calls env before { path := p, calls := [] }).2.path.m_stat_state
            = .stat_state_success →
          (run_calls env calls { path := p, calls := [] }).2.path.m_stat_state
            = .stat_state_success) ∧
        ((run_calls env before { path := p, calls := [] }).2.path.m_stat_state
            = .stat_state_failure →
          (run_calls env calls { path := p, calls := [] }).2.path.m_stat_state
            = .stat_state_failure ∧
          ∀ a ∈ (run_calls env after (run_calls env before { path := p, calls := [] }).2).1,
            a.negative = true) := by
  have hp : Path.of_source junk source = some
      { m_full_path := (parse_value false source).full_path,
        m_root := (parse_value false source).root,
        m_parts := (parse_value false source).parts,
        m_stat_state := .stat_state_uninitialized, m_stat := junk } := by
    unfold Path.of_source
    rw [parse_eq]
    rfl
  refine ⟨_, hp, ?_, ?_⟩
  · simpa using run_calls_count env calls _ rfl
  · intro before after hsplit
    subst hsplit
    rw [run_calls_append]
    constructor
    · intro h
      simp only
      rw [run_calls_success env after _ h]
      exact h
    · intro h
      obtain ⟨h1, h2⟩ := run_calls_failure env after _ h
      simp only
      rw [h1]
      exact ⟨h, h2⟩

/-- C7. Equality in the case-sensitive build: `equals` holds exactly when both full paths are
empty, or both are non-empty and they are the same sequence of code points; and the result is
the same whatever the cache states and stored records of the two objects are. -/
theorem equals_iff (A B : Path) :
    (A.equals B = true ↔
      (A.m_full_path = [] ∧ B.m_full_path = []) ∨
      (A.m_full_path ≠ [] ∧ B.m_full_path ≠ [] ∧ A.m_full_path = B.m_full_path)) ∧
    (∀ (sa sb : StatState) (ra rb : Stat),
      Path.equals { A with m_stat_state := sa, m_stat := ra }
          { B with m_stat_state := sb, m_stat := rb }
        = A.equals B) := by
  constructor
  · unfold Path.equals Path.empty
    cases hA : A.m_full_path with
    | nil => cases hB : B.m_full_path <;> simp
    | cons x xs =>
      simp only [List.isEmpty_cons, Bool.false_eq_true, if_false, decide_eq_true_eq,
        u32compare_eq_zero]
      constructor
      · intro h
        right
        exact ⟨by simp, by rw [← h]; simp, h⟩
      · intro h
        rcases h with h | h
        · simp at h
        · exact h.2.2
  · intro sa sb ra rb
    rfl

/-- C8. Ordering in the build without `_WIN32`: `compare` is negative, zero or positive
exactly when the full path of the first is lexicographically (code point by code point, a
proper initial part first) below, equal to or above the full path of the second; the empty
path compares below every non-empty path, every non-empty path above the empty path, and two
empty paths compare as 0. -/
theorem compare_sign (A B : Path) :
    (A.compare B < 0 ↔ List.Lex (fun x y : Nat => x < y) A.m_full_path B.m_full_path) ∧
    (A.compare B = 0 ↔ A.m_full_path = B.m_full_path) ∧
    (0 < A.compare B ↔ List.Lex (fun x y : Nat => x < y) B.m_full_path A.m_full_path) ∧
    (A.empty = true ∧ B.empty = false → A.compare B < 0) ∧
    (A.empty = false ∧ B.empty = true → 0 < A.compare B) ∧
    (A.empty = true ∧ B.empty = true → A.compare B = 0) := by
  have hgt : 0 < A.compare B ↔ List.Lex (fun x y : Nat => x < y) B.m_full_path A.m_full_path := by
    rw [Path.compare_eq, ← u32compare_neg_iff, u32compare_swap A.m_full_path B.m_full_path]
    omega
  refine ⟨?_, ?_, hgt, ?_, ?_, ?_⟩
  · rw [Path.compare_eq]; exact u32compare_neg_iff _ _
  · rw [Path.compare_eq]; exact u32compare_eq_zero _ _
  · intro h
    simp [Path.compare, h.1, h.2]
  · intro h
    rw [Path.compare_eq]
    unfold Path.empty at h
    cases hA : A.m_full_path with
    | nil => simp [hA] at h
    | cons x xs =>
      cases hB : B.m_full_path with
      | nil => simp [u32compare]
      | cons y ys => simp [hB] at h
  · intro h
    simp [Path.compare, h.1, h.2]

/-- C9. The relational operators form a total order consistent with equality: `<=` is
transitive and total, `==` holds exactly when `<=` holds both ways, `compare` is 0 exactly
when `equals` holds, and equal paths are not `<` in either direction. -/
theorem order_total (A B C : Path) :
    (A.op_le B = true ∧ B.op_le C = true → A.op_le C = true) ∧
    (A.op_le B = true ∨ B.op_le A = true) ∧
    (A.op_eq B = true ↔ (A.op_le B = true ∧ B.op_le A = true)) ∧
    (A.compare B = 0 ↔ A.equals B = true) ∧
    (A.op_eq B = true → A.op_lt B = false ∧ B.op_lt A = false) := by
  have heq : A.compare B = 0 ↔ A.equals B = true := by
    rw [Path.compare_eq, u32compare_eq_zero]
    rw [(equals_spec_aux A B)]
  have hswap : B.compare A = - A.compare B := by
    rw [Path.compare_eq, Path.compare_eq]; exact u32compare_swap _ _
  simp only [Path.op_le, Path.op_lt, Path.op_eq, decide_eq_true_eq, decide_eq_false_iff_not]
  refine ⟨?_, ?_, ?_, heq, ?_⟩
  · intro h
    rw [Path.compare_eq A B, Path.compare_eq B C] at h
    rw [Path.compare_eq A C]
    exact u32compare_trans _ _ _ h.1 h.2
  · omega
  · rw [← heq]; omega
  · rw [← heq]; omega

/-- C10. Parent-cancellation, in both builds and for either separator character: for every
non-empty list `S` of segments and every segment `x`, parsing `S`, `x` and `..` joined by the
separator returns the same parts as parsing `S` joined by the separator. -/
theorem parent_cancellation (win32 : Bool) (sep : Nat) (S : List U32String) (x : U32String)
    (hsep : is_separator sep = true) (hne : S ≠ [])
    (hS : ∀ s ∈ S, is_segment s = true) (hx : is_segment x = true) :
    ∃ r1 r2, parse win32 (join_with sep (S ++ [x, dotdot])) Parsed.clear = some r1 ∧
      parse win32 (join_with sep S) Parsed.clear = some r2 ∧
      r1.parts = r2.parts := by
  refine ⟨_, _, parse_eq win32 _, parse_eq win32 _, ?_⟩
  cases S with
  | nil => exact absurd rfl hne
  | cons p ps =>
    have hps : ∀ s ∈ ps, is_segment s = true := fun s hs => hS s (List.mem_cons_of_mem _ hs)
    have hok : ∀ q ∈ p :: ps, q ≠ [] ∧ sep_free q = true := fun q hq =>
      ⟨(is_segment_spec q (hS q hq)).1, (is_segment_spec q (hS q hq)).2.1⟩
    have hok2 : ∀ q ∈ p :: (ps ++ [x, dotdot]), q ≠ [] ∧ sep_free q = true := by
      intro q hq
      simp only [List.mem_cons, List.mem_append, List.mem_singleton, List.not_mem_nil,
        or_false] at hq
      rcases hq with hq | hq | hq | hq
      · exact hok q (by simp [hq])
      · exact hok q (by simp [hq])
      · subst hq; exact ⟨(is_segment_spec q hx).1, (is_segment_spec q hx).2.1⟩
      · subst hq; exact ⟨by decide, by decide⟩
    rw [List.cons_append, parse_value_join_parts win32 sep hsep p _ hok2,
      parse_value_join_parts win32 sep hsep p _ hok]
    split
    · exact push_all_cancel ps x [] hps hx
    · have := push_all_cancel (p :: ps) x [] hS hx
      simpa using this

/-- C10 at `S = [a, b]`, `x = c` with the slash: `a/b/c/..` and `a/b`. -/
theorem parent_cancellation_witness :
    ∃ r1 r2, parse false (join_with 47 ([u32 "a", u32 "b"] ++ [u32 "c", dotdot])) Parsed.clear
        = some r1 ∧
      parse false (join_with 47 [u32 "a", u32 "b"]) Parsed.clear = some r2 ∧
      r1.parts = r2.parts :=
  parent_cancellation false 47 [u32 "a", u32 "b"] (u32 "c") (by decide) (by decide)
    (by decide) (by decide)

/-! ## Further lemmas on the parser -/

theorem parse_value_shape (win32 : Bool) (source : U32String) :
    (parse_value win32 source).parts
      = push_all (runs_from [] (source.drop (parse_value win32 source).root.length)) [] ∧
    (parse_value win32 source).full_path
      = (parse_value win32 source).root
        ++ join_with (separator win32) (parse_value win32 source).parts := by
  cases source with
  | nil => simp [parse_value, runs_from, push_all, join_with]
  | cons c rest =>
    unfold parse_value
    by_cases hc : is_separator c = true
    · simp [hc]
    · simp only [hc, Bool.false_eq_true, if_false]
      by_cases hw : win32 = true ∧ isalpha c = true
      · simp only [hw, and_self, if_true]
        split
        · simp [runs_from, push_all, join_with]
        · rename_i d rest2
          by_cases hd : is_separator d = true
          · simp [hd, runs_from]
          · simp [hd]
        · simp
      · simp [hw]

theorem parse_value_parts_ok (win32 : Bool) (source : U32String) :
    ∀ q ∈ (parse_value win32 source).parts, q ≠ [] ∧ sep_free q = true := by
  rw [(parse_value_shape win32 source).1]
  exact parts_ok _

theorem parse_value_parts_tail (win32 : Bool) (source : U32String) :
    ∀ q ∈ (parse_value win32 source).parts.tail, q ≠ dot ∧ q ≠ dotdot := by
  rw [(parse_value_shape win32 source).1]
  exact parts_tail _

theorem fold_append_part_eq (cs : List U32String) :
    ∀ parts : List U32String, fold_append_part cs parts = some (push_all cs parts) := by
  induction cs with
  | nil => intro parts; rfl
  | cons c cs ih =>
    intro parts
    simp only [fold_append_part, append_part_eq, Option.some_bind, ih]
    rfl

theorem runs_from_go (rest : U32String) :
    ∀ cur : U32String,
    runs_from cur rest
      = (List.splitOnP.go is_separator rest cur.reverse).filter fun r => !r.isEmpty := by
  induction rest with
  | nil =>
    intro cur
    cases cur <;> simp [runs_from, List.splitOnP.go]
  | cons c rest ih =>
    intro cur
    by_cases hc : is_separator c = true
    · have h0 := ih []
      simp only [List.reverse_nil] at h0
      cases cur with
      | nil => simp [runs_from, List.splitOnP.go, hc, h0]
      | cons x xs => simp [runs_from, List.splitOnP.go, hc, h0]
    · have h1 := ih (cur ++ [c])
      simp only [List.reverse_append, List.reverse_cons, List.reverse_nil, List.nil_append,
        List.singleton_append] at h1
      simp [runs_from, List.splitOnP.go, hc, h1]

theorem runs_from_eq_reference (s : U32String) : runs_from [] s = reference_runs s := by
  have := runs_from_go s []
  simpa [reference_runs, List.splitOnP] using this

theorem runs_from_split (u : U32String) :
    ∀ (cur w : U32String) (sep : Nat), is_separator sep = true →
    runs_from cur (u ++ sep :: w) = runs_from cur u ++ runs_from [] w := by
  induction u with
  | nil =>
    intro cur w sep hsep
    cases cur <;> simp [runs_from, hsep]
  | cons c u ih =>
    intro cur w sep hsep
    by_cases hc : is_separator c = true
    · cases cur <;> simp [runs_from, hc, ih [] w sep hsep]
    · simp [runs_from, hc, ih (cur ++ [c]) w sep hsep]

theorem push_all_runs_split (u w : U32String) (sep : Nat) (hsep : is_separator sep = true) :
    push_all (runs_from [] (u ++ sep :: w)) []
      = push_all (runs_from [] w) (push_all (runs_from [] u) []) := by
  rw [runs_from_split u [] w sep hsep, push_all_append]

theorem parts_append_sep (win32 : Bool) (u w : U32String) (sep : Nat)
    (hsep : is_separator sep = true) :
    (parse_value win32 (u ++ sep :: w)).parts
      = push_all (runs_from [] w) (parse_value win32 u).parts := by
  have hsep58 : sep ≠ 58 := by
    intro h; subst h; simp [is_separator] at hsep
  cases u with
  | nil => simp [parse_value, hsep]
  | cons c u1 =>
    have hrel := push_all_runs_split (c :: u1) w sep hsep
    simp only [List.cons_append] at hrel ⊢
    unfold parse_value
    by_cases hc : is_separator c = true
    · simp only [hc, if_true]
      exact push_all_runs_split u1 w sep hsep
    · simp only [hc, Bool.false_eq_true, if_false]
      by_cases hw : win32 = true ∧ isalpha c = true
      · simp only [hw, and_self, if_true]
        cases u1 with
        | nil =>
          simp only [List.nil_append]
          split
          · rename_i heq; simp only [List.cons.injEq] at heq; exact absurd heq.1 hsep58
          · rename_i heq; simp only [List.cons.injEq] at heq; exact absurd heq.1 hsep58
          · exact hrel
        | cons e u2 =>
          by_cases he : e = 58
          · subst he
            cases u2 with
            | nil => simp [hsep]
            | cons f u3 =>
              by_cases hf : is_separator f = true
              · simp only [List.cons_append, hf, if_true]
                exact push_all_runs_split u3 w sep hsep
              · simp only [List.cons_append, hf, Bool.false_eq_true, if_false]
                exact hrel
          · simp only [List.cons_append]
            split
            · rename_i heq; simp only [List.cons.injEq] at heq; exact absurd heq.1 he
            · rename_i heq; simp only [List.cons.injEq] at heq; exact absurd heq.1 he
            · split
              · rename_i heq; simp only [List.cons.injEq] at heq; exact absurd heq.1 he
              · rename_i heq; simp only [List.cons.injEq] at heq; exact absurd heq.1 he
              · exact hrel
      · simp only [hw, if_false]
        exact hrel

theorem of_source_eq (junk : Stat) (source : U32String) :
    Path.of_source junk source = some
      { m_full_path := (parse_value false source).full_path,
        m_root := (parse_value false source).root,
        m_parts := (parse_value false source).parts,
        m_stat_state := .stat_state_uninitialized, m_stat := junk } := by
  unfold Path.of_source
  rw [parse_eq]
  rfl

theorem assign_source_eq (self : Path) (source : U32String) :
    self.assign_source source = some
      { self with m_full_path := (parse_value false source).full_path,
                  m_root := (parse_value false source).root,
                  m_parts := (parse_value false source).parts } := by
  unfold Path.assign_source
  rw [parse_eq]
  rfl

theorem reachable_inv (p : Path) (h : Reachable p) :
    p.m_full_path = p.m_root ++ join_with (separator false) p.m_parts ∧
    ∀ q ∈ p.m_parts, q ≠ [] ∧ sep_free q = true := by
  induction h with
  | new junk => simp [Path.new, join_with]
  | of_source junk source p hp =>
    rw [of_source_eq] at hp
    cases hp
    exact ⟨(parse_value_shape false source).2, parse_value_parts_ok false source⟩
  | copy that _ ih => exact ih
  | assign self that _ _ _ ih => exact ih
  | assign_source self source p _ hp _ =>
    rw [assign_source_eq] at hp
    cases hp
    exact ⟨(parse_value_shape false source).2, parse_value_parts_ok false source⟩

theorem join_with_eq_nil (sep : Nat) (parts : List U32String)
    (hall : ∀ q ∈ parts, q ≠ [] ∧ sep_free q = true) :
    join_with sep parts = [] ↔ parts = [] := by
  cases parts with
  | nil => simp [join_with]
  | cons p ps =>
    have hp := (hall p (List.mem_cons_self _ _)).1
    simp [join_with, hp]

theorem sep_free_not_mem (q : U32String) (h : sep_free q = true) : 47 ∉ q ∧ 92 ∉ q := by
  simp only [sep_free, List.all_eq_true] at h
  constructor
  · intro hm; have := h 47 hm; simp [is_separator] at this
  · intro hm; have := h 92 hm; simp [is_separator] at this

theorem mem_tail_of_index (parts : List U32String) (i : Nat) (q : U32String) (hi : 0 < i)
    (hq : parts[i]? = some q) : q ∈ parts.tail := by
  cases parts with
  | nil => simp at hq
  | cons h t =>
    cases i with
    | zero => omega
    | succ j =>
      simp only [List.getElem?_cons_succ] at hq
      exact List.getElem?_mem hq

/-! ## The claims, continued -/

/-- C13. Recompilation invariant. In both builds `parse` returns a triple whose full path is
the root followed by the parts joined with exactly one `path::separator` between neighbours
and nothing else, also on the early returns; and every path value reachable through the
constructors and the two `assign` methods has that shape. -/
theorem recompilation_invariant :
    (∀ (win32 : Bool) (source : U32String),
      ∃ r, parse win32 source Parsed.clear = some r ∧
        r.full_path = r.root ++ join_with (separator win32) r.parts) ∧
    (∀ p : Path, Reachable p →
      p.m_full_path = p.m_root ++ join_with (separator false) p.m_parts) := by
  constructor
  · intro win32 source
    exact ⟨_, parse_eq win32 source, (parse_value_shape win32 source).2⟩
  · intro p h
    exact (reachable_inv p h).1

/-- C13 at the path parsed from `/dev/sda` and at the early returns for `/` and for `C:`. -/
theorem recompilation_invariant_witness :
    sda_path.m_full_path = sda_path.m_root ++ join_with 47 sda_path.m_parts ∧
    parse false [47] Parsed.clear = some { full_path := [47], root := [47], parts := [] } ∧
    parse true [67, 58] Parsed.clear
      = some { full_path := [67, 58], root := [67, 58], parts := [] } :=
  ⟨recompilation_invariant.2 sda_path
      (Reachable.of_source junk_record (u32 "/dev/sda") sda_path (by decide)),
   by decide, by decide⟩

/-- C14. Emptiness invariant. For every path value produced by the default constructor, by
parsing a source string or by `assign`: `empty()` is true exactly when the full path is
empty, and the full path is empty exactly when the root is empty and there are no parts. -/
theorem emptiness_invariant (p : Path) (h : Reachable p) :
    (p.empty = true ↔ p.m_full_path = []) ∧
    (p.m_full_path = [] ↔ (p.m_root = [] ∧ p.m_parts = [])) := by
  obtain ⟨h1, h2⟩ := reachable_inv p h
  constructor
  · simp [Path.empty]
  · rw [h1, List.append_eq_nil, join_with_eq_nil _ _ h2]

/-- C14 at the default-constructed path and at the path parsed from `/dev/sda`. -/
theorem emptiness_invariant_witness :
    ((Path.new junk_record).empty = true ↔ (Path.new junk_record).m_full_path = []) ∧
    ((Path.new junk_record).m_full_path = [] ↔
      ((Path.new junk_record).m_root = [] ∧ (Path.new junk_record).m_parts = [])) ∧
    (sda_path.m_full_path = [] ↔ (sda_path.m_root = [] ∧ sda_path.m_parts = [])) :=
  ⟨(emptiness_invariant _ (Reachable.new junk_record)).1,
   (emptiness_invariant _ (Reachable.new junk_record)).2,
   (emptiness_invariant sda_path
      (Reachable.of_source junk_record (u32 "/dev/sda") sda_path (by decide))).2⟩

/-- C15. Root detection in the build without `_WIN32`: the empty source gives an empty root,
no parts and an empty full path; a source that starts with a separator gives that one
character as root, and when it is the whole source there are no parts and the full path is
the root; a non-empty source that starts with another character gives an empty root. -/
theorem root_detection :
    parse false [] Parsed.clear = some { full_path := [], root := [], parts := [] } ∧
    (∀ (c : Nat) (rest : U32String), is_separator c = true →
      ∃ r, parse false (c :: rest) Parsed.clear = some r ∧ r.root = [c]) ∧
    (∀ c : Nat, is_separator c = true →
      parse false [c] Parsed.clear = some { full_path := [c], root := [c], parts := [] }) ∧
    (∀ (c : Nat) (rest : U32String), is_separator c = false →
      ∃ r, parse false (c :: rest) Parsed.clear = some r ∧ r.root = []) := by
  refine ⟨by decide, ?_, ?_, ?_⟩
  · intro c rest hc
    exact ⟨_, parse_eq false _, by simp [parse_value, hc]⟩
  · intro c hc
    show parse false [c] { full_path := [], root := [], parts := [] } = _
    rw [parse_eq]
    simp [parse_value, hc, runs_from, push_all, join_with]
  · intro c rest hc
    exact ⟨_, parse_eq false _, by simp [parse_value, hc]⟩

/-- C15 at the sources `/`, `\x` and `x/y`. -/
theorem root_detection_witness :
    parse false [47] Parsed.clear = some { full_path := [47], root := [47], parts := [] } ∧
    (∃ r, parse false [92, 120] Parsed.clear = some r ∧ r.root = [92]) ∧
    (∃ r, parse false [120, 47, 121] Parsed.clear = some r ∧ r.root = []) :=
  ⟨root_detection.2.2.1 47 (by decide),
   root_detection.2.1 92 [120] (by decide),
   root_detection.2.2.2 120 [47, 121] (by decide)⟩

theorem parse_checked_eq (win32 : Bool) (source : U32String) (out : Parsed) :
    parse_checked win32 source out =
      if win32 = true ∧ isalpha_out_of_domain source = true then none
      else parse win32 source out := by
  cases source with
  | nil => simp [parse_checked, parse, isalpha_out_of_domain]
  | cons c rest =>
    by_cases hc : is_separator c = true
    · have hd : isalpha_out_of_domain (c :: rest) = false := by
        cases rest <;> simp [isalpha_out_of_domain, hc]
      simp [parse_checked, parse, char_at, hc, hd]
    · by_cases hw : win32 = true
      · cases rest with
        | nil => simp [parse_checked, parse, char_at, hc, hw, isalpha_out_of_domain]
        | cons d rest1 =>
          by_cases h255 : c ≤ 255
          · have hd : isalpha_out_of_domain (c :: d :: rest1) = false := by
              simp [isalpha_out_of_domain, h255]
            by_cases ha : isalpha c = true
            · simp [parse_checked, parse, char_at, hc, hw, hd, isalpha_checked, h255, ha]
            · simp [parse_checked, parse, char_at, hc, hw, hd, isalpha_checked, h255, ha]
          · have hd : isalpha_out_of_domain (c :: d :: rest1) = true := by
              simp only [isalpha_out_of_domain, Bool.and_eq_true, Bool.not_eq_true',
                decide_eq_true_eq]
              exact ⟨by simpa using hc, by omega⟩
            simp [parse_checked, char_at, hc, hw, hd, isalpha_checked, h255]
      · simp [parse_checked, parse, char_at, hc, hw]

/-- C17, the code at the failing input and around it. In the build without `_WIN32` the
parser is total: for every source string it returns a triple, so no index, `substr` start or
`back()` is out of range, and the constructor and `assign` from a string always return a
path. In the `_WIN32` build the same holds exactly for the sources on which
`std::isalpha(source[0])` is called inside its domain; on every source of at least two code
points whose first code point is above 255 and not a separator the call is undefined, for
instance on U+4E2D, `:`, `\`, `a`. Wherever the run is defined its result is that of
`parse`. -/
theorem parse_checked_domain :
    (∀ source : U32String, ∃ r, parse_checked false source Parsed.clear = some r) ∧
    (∀ (junk : Stat) (source : U32String), ∃ p, Path.of_source junk source = some p) ∧
    (∀ (self : Path) (source : U32String), ∃ p, self.assign_source source = some p) ∧
    (∀ source : U32String, isalpha_out_of_domain source = false →
      ∃ r, parse_checked true source Parsed.clear = some r) ∧
    (∀ source : U32String, isalpha_out_of_domain source = true →
      parse_checked true source Parsed.clear = none) ∧
    parse_checked true [0x4E2D, 58, 92, 97] Parsed.clear = none ∧
    (∀ (win32 : Bool) (source : U32String) (r : Parsed),
      parse_checked win32 source Parsed.clear = some r →
      parse win32 source Parsed.clear = some r) := by
  refine ⟨?_, fun junk source => ⟨_, of_source_eq junk source⟩,
    fun self source => ⟨_, assign_source_eq self source⟩, ?_, ?_, by decide, ?_⟩
  · intro source
    refine ⟨parse_value false source, ?_⟩
    rw [parse_checked_eq]
    simpa using parse_eq false source
  · intro source h
    refine ⟨parse_value true source, ?_⟩
    rw [parse_checked_eq]
    simpa [h] using parse_eq true source
  · intro source h
    rw [parse_checked_eq]
    simp [h]
  · intro win32 source r h
    rw [parse_checked_eq] at h
    split at h
    · exact absurd h (by simp)
    · exact h

/-- C20. Well-formedness of the parts in both builds: for every source string every part is
non-empty and holds neither a slash nor a backslash, and a part at an index above 0 is
neither `.` nor `..`. -/
theorem parts_well_formed (win32 : Bool) (source : U32String) :
    ∃ r, parse win32 source Parsed.clear = some r ∧
      (∀ q ∈ r.parts, q ≠ [] ∧ 47 ∉ q ∧ 92 ∉ q) ∧
      (∀ (i : Nat) (q : U32String), 0 < i → r.parts[i]? = some q → q ≠ dot ∧ q ≠ dotdot) := by
  refine ⟨_, parse_eq win32 source, ?_, ?_⟩
  · intro q hq
    have h := parse_value_parts_ok win32 source q hq
    exact ⟨h.1, sep_free_not_mem q h.2⟩
  · intro i q hi hq
    exact parse_value_parts_tail win32 source q (mem_tail_of_index _ i q hi hq)

/-- C11, a counter-example. On the empty list `append_part` appends the candidate `.`; the
source `./a` parses to the parts `.` and `a` while `a` parses to the part `a`, and `/./a`
parses to the parts `.` and `a` while `/a` parses to the part `a`. -/
theorem dot_kept_at_first_component :
    append_part dot [] = some [dot] ∧
    parse false (u32 "./a") Parsed.clear
      = some { full_path := u32 "./a", root := [], parts := [u32 ".", u32 "a"] } ∧
    parse false (u32 "a") Parsed.clear
      = some { full_path := u32 "a", root := [], parts := [u32 "a"] } ∧
    parse false (u32 "/./a") Parsed.clear
      = some { full_path := u32 "/./a", root := u32 "/", parts := [u32 ".", u32 "a"] } ∧
    parse false (u32 "/a") Parsed.clear
      = some { full_path := u32 "/a", root := u32 "/", parts := [u32 "a"] } ∧
    (parse false (u32 "./a") Parsed.clear).map (fun r => r.parts)
      ≠ (parse false (u32 "a") Parsed.clear).map (fun r => r.parts) := by
  refine ⟨by decide, by decide, by decide, by decide, by decide, by decide⟩

/-- C11 as amended. A candidate that is exactly `.` is dropped whenever the current list of
parts is non-empty and is appended when the list is empty. Hence, in both builds, for every
raw input `u`, every separator and every continuation `w`: when the parts of `u` are
non-empty, `u`, separator, `.`, separator, `w` parses to the same parts as `u`, separator,
`w`, and `u`, separator, `.` to the same parts as `u`; when the parts of `u` are empty, the
`.` is appended to the empty list and the rest is normalized from the list that holds `.`
alone, so `u`, separator, `.`, separator, `w` has the parts of the fold of `append_part`
over the runs of `w` started from that list, and `u`, separator, `.` has the single part
`.`; and a `.` as very first component is treated the same way: `.`, separator, `w` has the
parts of that fold. -/
theorem dot_elision (win32 : Bool) (u w : U32String) (sep : Nat) (r : Parsed)
    (hsep : is_separator sep = true) (hu : parse win32 u Parsed.clear = some r) :
    (∀ parts : List U32String, parts ≠ [] → append_part dot parts = some parts) ∧
    append_part dot [] = some [dot] ∧
    (r.parts ≠ [] →
      (∃ r1 r2, parse win32 (u ++ sep :: 46 :: sep :: w) Parsed.clear = some r1 ∧
        parse win32 (u ++ sep :: w) Parsed.clear = some r2 ∧ r1.parts = r2.parts) ∧
      (∃ r3, parse win32 (u ++ [sep, 46]) Parsed.clear = some r3 ∧ r3.parts = r.parts)) ∧
    (r.parts = [] →
      (∃ r1, parse win32 (u ++ sep :: 46 :: sep :: w) Parsed.clear = some r1 ∧
        fold_append_part (reference_runs w) [dot] = some r1.parts) ∧
      (∃ r3, parse win32 (u ++ [sep, 46]) Parsed.clear = some r3 ∧ r3.parts = [dot])) ∧
    (∃ r0, parse win32 (46 :: sep :: w) Parsed.clear = some r0 ∧
      fold_append_part (reference_runs w) [dot] = some r0.parts) := by
  have hr : r = parse_value win32 u := by
    have := parse_eq win32 u
    rw [show Parsed.clear = { full_path := [], root := [], parts := [] } from rfl] at hu
    rw [this] at hu
    exact (Option.some.inj hu).symm
  subst hr
  have hdot : ∀ parts : List U32String, parts ≠ [] → push_part dot parts = parts := by
    intro parts hp
    simp [push_part, dot, hp]
  have hdot0 : push_part dot [] = [dot] := by decide
  have h46 : is_separator 46 = false := by decide
  have hruns : runs_from [] (46 :: sep :: w) = dot :: runs_from [] w := by
    simp [runs_from, h46, hsep, dot]
  have hruns1 : runs_from [] [46] = [dot] := by decide
  refine ⟨?_, by decide, ?_, ?_, ?_⟩
  · intro parts hp
    rw [append_part_eq, hdot parts hp]
  · intro hne
    refine ⟨⟨_, _, parse_eq win32 _, parse_eq win32 _, ?_⟩, ⟨_, parse_eq win32 _, ?_⟩⟩
    · rw [parts_append_sep win32 u _ sep hsep, parts_append_sep win32 u w sep hsep, hruns]
      simp only [push_all, List.foldl_cons, hdot _ hne]
    · rw [parts_append_sep win32 u _ sep hsep, hruns1]
      simp only [push_all, List.foldl_cons, List.foldl_nil, hdot _ hne]
  · intro hnil
    refine ⟨⟨_, parse_eq win32 _, ?_⟩, ⟨_, parse_eq win32 _, ?_⟩⟩
    · rw [parts_append_sep win32 u _ sep hsep, hruns, hnil, fold_append_part_eq,
        ← runs_from_eq_reference]
      simp only [push_all, List.foldl_cons, hdot0]
    · rw [parts_append_sep win32 u _ sep hsep, hruns1, hnil]
      simp only [push_all, List.foldl_cons, List.foldl_nil, hdot0]
  · refine ⟨_, parse_eq win32 _, ?_⟩
    have h1 : (parse_value win32 [46]).parts = [dot] := by cases win32 <;> decide
    have h2 := parts_append_sep win32 [46] w sep hsep
    simp only [List.singleton_append] at h2
    rw [h2, h1, fold_append_part_eq, ← runs_from_eq_reference]

/-- C11 as amended, at `u = a`, `w = b` with the slash: `a/./b` against `a/b`, `a/.` against
`a`, and `./b`; and at the empty `u` with `w = ..`: `/./..` has the parts of the fold over
the run `..` started from the list that holds `.`, which is the empty list. -/
theorem dot_elision_witness :
    ((∃ r1 r2, parse false (u32 "a" ++ 47 :: 46 :: 47 :: u32 "b") Parsed.clear = some r1 ∧
        parse false (u32 "a" ++ 47 :: u32 "b") Parsed.clear = some r2 ∧ r1.parts = r2.parts) ∧
      (∃ r3, parse false (u32 "a" ++ [47, 46]) Parsed.clear = some r3 ∧
        r3.parts = [u32 "a"])) ∧
    (∃ r0, parse false (46 :: 47 :: u32 "b") Parsed.clear = some r0 ∧
      fold_append_part (reference_runs (u32 "b")) [dot] = some r0.parts) ∧
    (∃ r1, parse false ([] ++ 47 :: 46 :: 47 :: dotdot) Parsed.clear = some r1 ∧
      fold_append_part (reference_runs dotdot) [dot] = some r1.parts) ∧
    fold_append_part (reference_runs dotdot) [dot] = some [] :=
  ⟨(dot_elision false (u32 "a") (u32 "b") 47
      { full_path := u32 "a", root := [], parts := [u32 "a"] } (by decide) (by decide)).2.2.1
      (by decide),
   (dot_elision false (u32 "a") (u32 "b") 47
      { full_path := u32 "a", root := [], parts := [u32 "a"] } (by decide) (by decide)).2.2.2.2,
   ((dot_elision false [] dotdot 47 Parsed.clear (by decide) (by decide)).2.2.2.1 rfl).1,
   by decide⟩

/-- C12, a counter-example. On the empty list `append_part` appends the candidate `..`; the
source `..` parses to the part `..` with full path `..`, and `../x` parses to the parts `..`
and `x` while `x` parses to the part `x`. -/
theorem dotdot_kept_on_empty_list :
    append_part dotdot [] = some [dotdot] ∧
    parse false (u32 "..") Parsed.clear
      = some { full_path := u32 "..", root := [], parts := [u32 ".."] } ∧
    parse false (u32 "../x") Parsed.clear
      = some { full_path := u32 "../x", root := [], parts := [u32 "..", u32 "x"] } ∧
    parse false (u32 "x") Parsed.clear
      = some { full_path := u32 "x", root := [], parts := [u32 "x"] } ∧
    (parse false (u32 "../x") Parsed.clear).map (fun r => r.parts)
      ≠ (parse false (u32 "x") Parsed.clear).map (fun r => r.parts) := by
  refine ⟨by decide, by decide, by decide, by decide, by decide⟩

/-- C12 as amended. A `..` candidate that arrives while the list of parts is empty is appended
as a part: in both builds `..` parses to the single part `..` with full path `..`, and for
every segment `x` and separator the source `..`, separator, `x` parses to the parts `..` and
`x`. -/
theorem leading_dotdot_kept (win32 : Bool) (sep : Nat) (x : U32String)
    (hsep : is_separator sep = true) (hx : is_segment x = true) :
    append_part dotdot [] = some [dotdot] ∧
    parse win32 dotdot Parsed.clear
      = some { full_path := dotdot, root := [], parts := [dotdot] } ∧
    ∃ r, parse win32 (dotdot ++ sep :: x) Parsed.clear = some r ∧ r.parts = [dotdot, x] := by
  have hx2 := is_segment_spec x hx
  refine ⟨by decide, by cases win32 <;> decide, ⟨_, parse_eq win32 _, ?_⟩⟩
  rw [parts_append_sep win32 dotdot x sep hsep]
  have h1 : (parse_value win32 dotdot).parts = [dotdot] := by cases win32 <;> decide
  have h2 : runs_from [] x = [x] := by
    have := runs_from_join sep hsep [x] (by simpa using ⟨hx2.1, hx2.2.1⟩)
    simpa [join_with, glue] using this
  rw [h1, h2]
  have := push_all_segments [x] [dotdot] (by simpa using hx)
  simpa using this

/-- C12 as amended, at `x` with the slash: `../x`. -/
theorem leading_dotdot_kept_witness :
    append_part dotdot [] = some [dotdot] ∧
    parse false dotdot Parsed.clear
      = some { full_path := dotdot, root := [], parts := [dotdot] } ∧
    ∃ r, parse false (dotdot ++ 47 :: u32 "x") Parsed.clear = some r ∧
      r.parts = [dotdot, u32 "x"] :=
  leading_dotdot_kept false 47 (u32 "x") (by decide) (by decide)

/-- C16. On every non-empty path, whatever `::stat` reports: `exists()` is the result of the
probe; `size()`, `last_access()` and `last_modified()` have a value exactly when the probe
succeeds, namely the size of the stored record and `datetime::timestamp` of its access and
modification times; all four leave the object as the probe leaves it. Spelled out by state:
from `uninitialized` the answers come from the record that `::stat` returns, or are false and
no value when it fails; in `success` they come from the record already stored; in `failure`
they are false and no value. -/
theorem accessors_nonempty {D : Type} (env : Env D) (t : Traced) (h : t.path.empty = false) :
    Path.exists_ env t = Path.stat env t ∧
    Path.size env t =
      ((if (Path.stat env t).1 = true then some (Path.stat env t).2.path.m_stat.st_size
        else none), (Path.stat env t).2) ∧
    Path.last_access env t =
      ((if (Path.stat env t).1 = true
        then some (env.timestamp (Path.stat env t).2.path.m_stat.st_atime)
        else none), (Path.stat env t).2) ∧
    Path.last_modified env t =
      ((if (Path.stat env t).1 = true
        then some (env.timestamp (Path.stat env t).2.path.m_stat.st_mtime)
        else none), (Path.stat env t).2) ∧
    (t.path.m_stat_state = .stat_state_uninitialized →
      ∀ record, env.sys_stat (env.encode t.path.m_full_path) = some record →
        (Path.exists_ env t).1 = true ∧
        (Path.size env t).1 = some record.st_size ∧
        (Path.last_access env t).1 = some (env.timestamp record.st_atime) ∧
        (Path.last_modified env t).1 = some (env.timestamp record.st_mtime)) ∧
    (t.path.m_stat_state = .stat_state_uninitialized →
      env.sys_stat (env.encode t.path.m_full_path) = none →
        (Path.exists_ env t).1 = false ∧ (Path.size env t).1 = none ∧
        (Path.last_access env t).1 = none ∧ (Path.last_modified env t).1 = none) ∧
    (t.path.m_stat_state = .stat_state_success →
        (Path.exists_ env t).1 = true ∧
        (Path.size env t).1 = some t.path.m_stat.st_size ∧
        (Path.last_access env t).1 = some (env.timestamp t.path.m_stat.st_atime) ∧
        (Path.last_modified env t).1 = some (env.timestamp t.path.m_stat.st_mtime)) ∧
    (t.path.m_stat_state = .stat_state_failure →
        (Path.exists_ env t).1 = false ∧ (Path.size env t).1 = none ∧
        (Path.last_access env t).1 = none ∧ (Path.last_modified env t).1 = none) := by
  have he : Path.exists_ env t = Path.stat env t := by simp [Path.exists_, h]
  have hs : Path.size env t =
      ((if (Path.stat env t).1 = true then some (Path.stat env t).2.path.m_stat.st_size
        else none), (Path.stat env t).2) := by
    simp only [Path.size, h, Bool.false_eq_true, not_false_eq_true, if_true]
    split <;> rfl
  have ha : Path.last_access env t =
      ((if (Path.stat env t).1 = true
        then some (env.timestamp (Path.stat env t).2.path.m_stat.st_atime)
        else none), (Path.stat env t).2) := by
    simp only [Path.last_access]
    split <;> rfl
  have hm : Path.last_modified env t =
      ((if (Path.stat env t).1 = true
        then some (env.timestamp (Path.stat env t).2.path.m_stat.st_mtime)
        else none), (Path.stat env t).2) := by
    simp only [Path.last_modified]
    split <;> rfl
  refine ⟨he, hs, ha, hm, ?_, ?_, ?_, ?_⟩
  · intro hu record hr
    have hst : Path.stat env t =
        (true, { path := { t.path with m_stat := record, m_stat_state := .stat_state_success },
                 calls := t.calls ++ [env.encode t.path.m_full_path] }) := by
      simp [Path.stat, hu, hr]
    rw [he, hs, ha, hm, hst]
    simp
  · intro hu hr
    have hst : Path.stat env t =
        (false, { path := { t.path with m_stat_state := .stat_state_failure },
                  calls := t.calls ++ [env.encode t.path.m_full_path] }) := by
      simp [Path.stat, hu, hr]
    rw [he, hs, ha, hm, hst]
    simp
  · intro hu
    rw [he, hs, ha, hm, stat_success env t hu]
    simp
  · intro hu
    rw [he, hs, ha, hm, stat_failure env t hu]
    simp

/-- C16 at the path parsed from `/dev/sda`, not yet probed, against `example_env`. -/
theorem accessors_nonempty_witness :
    (Path.exists_ example_env { path := sda_path, calls := [] }).1 = true ∧
    (Path.size example_env { path := sda_path, calls := [] }).1 = some blk_record.st_size ∧
    (Path.last_access example_env { path := sda_path, calls := [] }).1
      = some (example_env.timestamp blk_record.st_atime) ∧
    (Path.last_modified example_env { path := sda_path, calls := [] }).1
      = some (example_env.timestamp blk_record.st_mtime) :=
  (accessors_nonempty example_env { path := sda_path, calls := [] } (by decide)).2.2.2.2.1
    rfl blk_record (by decide)

/-- C18, the code at the failing input. Under `_WIN32` the source `C:\a` parses to the root
`C:`, the part `a` and the full path `C:a` (`compile_path` puts no separator before the first
part), and `C:a` parses to an empty root and the single part `C:a`. -/
theorem drive_root_reparse :
    parse true [67, 58, 92, 97] Parsed.clear
      = some { full_path := [67, 58, 97], root := [67, 58], parts := [[97]] } ∧
    parse true [67, 58, 97] Parsed.clear
      = some { full_path := [67, 58, 97], root := [], parts := [[67, 58, 97]] } ∧
    compile_path true [67, 58] [[97]] = some [67, 58, 97] := by
  refine ⟨by decide, by decide, by decide⟩

/-- C19. Segment scanning equals a reference split. In both builds, for every source string,
the parts that `parse` returns are the left fold of `append_part`, from the empty list, over
`reference_runs` of the source after the root (the non-empty maximal runs of characters that
are not separators, in order). Repeated and trailing separators give no candidate and a last
run without a separator after it is a candidate. The two scenarios: `a/b/../c` has the parts
`a`, `c` and the full path `a/c`; `/a/./b/` has the root `/`, the parts `a`, `b` and the full
path `/a/b`. -/
theorem scan_is_reference_split :
    (∀ (win32 : Bool) (source : U32String),
      ∃ r, parse win32 source Parsed.clear = some r ∧
        fold_append_part (reference_runs (source.drop r.root.length)) [] = some r.parts) ∧
    reference_runs (u32 "a//b/") = [u32 "a", u32 "b"] ∧
    reference_runs (u32 "a/b") = [u32 "a", u32 "b"] ∧
    parse false (u32 "a/b/../c") Parsed.clear
      = some { full_path := u32 "a/c", root := [], parts := [u32 "a", u32 "c"] } ∧
    parse false (u32 "/a/./b/") Parsed.clear
      = some { full_path := u32 "/a/b", root := u32 "/", parts := [u32 "a", u32 "b"] } := by
  refine ⟨?_, by decide, by decide, by decide, by decide⟩
  intro win32 source
  refine ⟨_, parse_eq win32 source, ?_⟩
  rw [fold_append_part_eq, ← runs_from_eq_reference, ← (parse_value_shape win32 source).1]

end peelo
